import Mathlib

/-!
BuildingRecognition: feature matching, geometric verification and the bin ledger.

A shallow embedding of the vision engine (`src/lib/engine.cpp`), the recognition
query (`src/lib/recogniser.cpp`) and the descriptor index store
(`src/lib/feature_saver.cpp`), followed by theorems about them.

Conventions of the embedding:

* `float`/`double` values are elements of a linearly ordered field `α`, with exact
  arithmetic in place of IEEE rounding; `ℚ` is used wherever a value is computed
  and `ℝ` where a square root is taken. The ratio test of `loweFilter` is also given
  bit-accurately, `loweFilterF32`: binary32 distances as rationals, the constant `0.8f`
  and the product rounded to binary32.
* `std::vector` is `List`; `cv::Mat` is a row-major `Mat` record.
* `int`/`long` are `Int`/`Nat` without wrap-around: the loop counters are bounded by
  the size of a container held in memory, and a bin number counted up from an empty
  ledger overflows a 64-bit `long` only after 2^63 descriptors. Where a bin number is
  read from the ledger file, `firstBin` treats the overflow of `stol(...) + 1` as
  undefined behaviour, and the theorem about such a ledger keeps every sum inside a
  64-bit `long`.
* A C++ exception or an access outside a container ends the call with a `Fault`.
* The OpenCV capabilities (descriptor extraction, nearest-neighbour search, the
  RANSAC estimator, image decoding) are parameters of the definitions.
* Source names are kept, with two exceptions: the vector `matches` is `matchList`
  (`matches` is reserved in Lean), and of the two overloads of `ransacFilter` the
  single-image one keeps the name and the batch one is `ransacFilterBatch`.
-/

namespace BuildingRecognition

/-- Ways in which a call can end without returning normally. -/
inductive Fault
  | out_of_range
  | invalid_argument
  | undefined_behaviour
  | cv_error
deriving DecidableEq, Repr

/-- The record `cv::DMatch`: a correspondence between a query descriptor and a
reference descriptor of reference image `imgIdx`. -/
structure DMatch (α : Type) where
  queryIdx : Int
  trainIdx : Int
  imgIdx : Int
  distance : α
deriving DecidableEq, Repr

instance {α : Type} [Zero α] : Inhabited (DMatch α) := ⟨⟨0, 0, 0, 0⟩⟩

section Engine

variable {α : Type} [LinearOrderedField α]

/-- The loop of `loweFilter` (engine.cpp:120-129) with the ratio test read in exact
arithmetic, `d1 ≤ 0.8 * d2`; the test as binary32 computes it is `loweFilterLoopF32`, and
the two agree off the rounding boundary (`loweFilterF32_eq_exact`). `good_matches` is
the accumulator, the list argument the candidates `knnMatches[i], knnMatches[i+1], ...`
still to be visited. Reading `knnMatches[i][0]` or `knnMatches[i][1]` outside the inner
vector is undefined behaviour. -/
def loweFilterLoop : List (List (DMatch α)) → List (DMatch α) → Except Fault (List (DMatch α))
  | [], good_matches => .ok good_matches
  | (c0 :: c1 :: _) :: rest, good_matches =>
    if c0.distance ≤ 0.8 * c1.distance then loweFilterLoop rest (good_matches ++ [c0])
    else loweFilterLoop rest good_matches
  | _ :: _, _ => .error Fault.undefined_behaviour

/-- The function `loweFilter` (engine.cpp:116-131), exact-arithmetic reading: the value
assigned to the out-parameter `matches`. -/
def loweFilter (knnMatches : List (List (DMatch α))) : Except Fault (List (DMatch α)) :=
  loweFilterLoop knnMatches []

/-- The entry `knnMatches[i][k]`. -/
def cand (knnMatches : List (List (DMatch α))) (i k : Nat) : DMatch α :=
  (knnMatches.getD i []).getD k default

end Engine

/-- The constant `const float ratio = 0.8` (engine.cpp:122): the binary32 value nearest to
0.8, which is 13421773 / 2^24 and lies above 0.8. -/
def ratioF32 : ℚ := 13421773 / 16777216

/-- Rounding to the nearest integer, a tie going to the even neighbour. -/
def roundHalfEven (q : ℚ) : Int :=
  if q - ⌊q⌋ < 1 / 2 then ⌊q⌋
  else if 1 / 2 < q - ⌊q⌋ then ⌊q⌋ + 1
  else if ⌊q⌋ % 2 = 0 then ⌊q⌋ else ⌊q⌋ + 1

/-- The spacing of the binary32 values around `x`: `2^(k-23)` when `2^k ≤ |x| < 2^(k+1)`,
and `2^(-149)`, the subnormal spacing, below `2^(-126)`. -/
def ulpF32 (x : ℚ) : ℚ := 2 ^ (max (Int.log 2 |x|) (-126) - 23)

/-- The binary32 result of an operation whose exact result is `x`, in the default IEEE-754
mode (round to nearest, ties to even), for `x` inside the finite range. -/
def roundF32 (x : ℚ) : ℚ := roundHalfEven (x / ulpF32 x) * ulpF32 x

/-- The loop of `loweFilter` (engine.cpp:120-129) as binary32 computes it: the distances
are finite `float` values, given as rationals; `ratio * knnMatches[i][1].distance` is the
product of two `float`s, evaluated in `float` and so rounded to binary32; the comparison
of two `float`s is exact. -/
def loweFilterLoopF32 :
    List (List (DMatch ℚ)) → List (DMatch ℚ) → Except Fault (List (DMatch ℚ))
  | [], good_matches => .ok good_matches
  | (c0 :: c1 :: _) :: rest, good_matches =>
    if c0.distance ≤ roundF32 (ratioF32 * c1.distance) then
      loweFilterLoopF32 rest (good_matches ++ [c0])
    else loweFilterLoopF32 rest good_matches
  | _ :: _, _ => .error Fault.undefined_behaviour

/-- The function `loweFilter` (engine.cpp:116-131) as binary32 computes it: the value
assigned to the out-parameter `matches`. -/
def loweFilterF32 (knnMatches : List (List (DMatch ℚ))) : Except Fault (List (DMatch ℚ)) :=
  loweFilterLoopF32 knnMatches []

/-- The record `cv::Point2f`. -/
structure Point2f (α : Type) where
  x : α
  y : α
deriving DecidableEq, Repr

/-- The record `cv::KeyPoint`; the engine reads only its position `pt`. -/
structure KeyPoint (α : Type) where
  pt : Point2f α
deriving DecidableEq, Repr

/-- A `cv::Mat` with one channel: `rows`, `cols` and the elements in row-major order.
A default-constructed `Mat` is `Mat.empty`. -/
structure Mat (α : Type) where
  rows : Nat
  cols : Nat
  data : List α
deriving DecidableEq, Repr

/-- The default-constructed `cv::Mat()`. -/
def Mat.empty {α : Type} : Mat α := ⟨0, 0, []⟩

/-- The matrix `Mat::eye(3, 3, CV_64F)`. -/
def Mat.eye3 {α : Type} [Zero α] [One α] : Mat α := ⟨3, 3, [1, 0, 0, 0, 1, 0, 0, 0, 1]⟩

/-- The checked access `v.at(i)` of `std::vector` with an `int` index: a negative index
converts to a huge `size_t`, so it throws `std::out_of_range` like any index past the end. -/
def vecAt {β : Type} (v : List β) (i : Int) : Except Fault β :=
  if i < 0 then .error Fault.out_of_range
  else match v.get? i.toNat with
    | some b => .ok b
    | none => .error Fault.out_of_range

/-- The robust estimator `cv::findHomography(src, dst, CV_RANSAC, 3, mask)`: it returns the
transform and writes the inlier mask, a column of `uchar`, one row per mask entry. -/
abbrev Estimator (α : Type) := List (Point2f α) → List (Point2f α) → Mat α × List Nat

/-- What a geometric verifier leaves behind: the out-parameters `matches` and
`homography`, and the argument pairs of the calls made to the estimator, in call order. -/
structure Verified (α : Type) where
  matchList : List (DMatch α)
  homography : Mat α
  calls : List (List (Point2f α) × List (Point2f α))
deriving DecidableEq, Repr

/-- What the batch verifier leaves behind: the out-parameters `matches` and
`homographies`, and the argument pairs of the calls made to the estimator. -/
structure VerifiedBatch (α : Type) where
  matchList : List (DMatch α)
  homographies : List (Mat α)
  calls : List (List (Point2f α) × List (Point2f α))
deriving DecidableEq, Repr

section Verifier

variable {α : Type} [LinearOrderedField α]

/-- The coordinate loop of the single-image `ransacFilter` (engine.cpp:150-154). -/
def gatherCoords (queryKeypoints trainingKeypoints : List (KeyPoint α)) :
    List (DMatch α) → List (Point2f α) → List (Point2f α) →
      Except Fault (List (Point2f α) × List (Point2f α))
  | [], queryCoords, trainingCoords => .ok (queryCoords, trainingCoords)
  | m :: rest, queryCoords, trainingCoords =>
    match vecAt queryKeypoints m.queryIdx with
    | .error e => .error e
    | .ok kq =>
      match vecAt trainingKeypoints m.trainIdx with
      | .error e => .error e
      | .ok kt =>
        gatherCoords queryKeypoints trainingKeypoints rest
          (queryCoords ++ [kq.pt]) (trainingCoords ++ [kt.pt])

/-- The inlier loop (engine.cpp:161-168 and 214-219): `i` runs over the rows of
`outputMask`, and a non-zero mask entry pushes `matches[i]`, the `i`-th element of the
whole vector `matches`. The unchecked `matches[i]` past the end is undefined behaviour. -/
def inlierLoop (matchList : List (DMatch α)) :
    List Nat → Nat → List (DMatch α) → Except Fault (List (DMatch α))
  | [], _, good_matches => .ok good_matches
  | b :: mask, i, good_matches =>
    if b ≠ 0 then
      match matchList.get? i with
      | some m => inlierLoop matchList mask (i + 1) (good_matches ++ [m])
      | none => .error Fault.undefined_behaviour
    else inlierLoop matchList mask (i + 1) good_matches

/-- The single-image overload of `ransacFilter` (engine.cpp:143-170). The argument
`homography` is the value of the in/out parameter at the call. -/
def ransacFilter (findHomography : Estimator α) (matchList : List (DMatch α))
    (queryKeypoints trainingKeypoints : List (KeyPoint α)) (homography : Mat α) :
    Except Fault (Verified α) :=
  if matchList.length < 4 then .ok ⟨matchList, homography, []⟩
  else
    match gatherCoords queryKeypoints trainingKeypoints matchList [] [] with
    | .error e => .error e
    | .ok (queryCoords, trainingCoords) =>
      let est := findHomography queryCoords trainingCoords
      match inlierLoop matchList est.2 0 [] with
      | .error e => .error e
      | .ok good_matches => .ok ⟨good_matches, est.1, [(queryCoords, trainingCoords)]⟩

/-- The coordinate loop of the batch `ransacFilter` for reference image `j`
(engine.cpp:191-200): only matches with `imgIdx == j` contribute. -/
def gatherCoordsFor (j : Nat) (queryKeypoints : List (KeyPoint α))
    (trainingKeypoints : List (List (KeyPoint α))) :
    List (DMatch α) → List (Point2f α) → List (Point2f α) →
      Except Fault (List (Point2f α) × List (Point2f α))
  | [], queryCoords, trainingCoords => .ok (queryCoords, trainingCoords)
  | m :: rest, queryCoords, trainingCoords =>
    if m.imgIdx = (j : Int) then
      match vecAt queryKeypoints m.queryIdx with
      | .error e => .error e
      | .ok kq =>
        match vecAt trainingKeypoints (j : Int) with
        | .error e => .error e
        | .ok tk =>
          match vecAt tk m.trainIdx with
          | .error e => .error e
          | .ok kt =>
            gatherCoordsFor j queryKeypoints trainingKeypoints rest
              (queryCoords ++ [kq.pt]) (trainingCoords ++ [kt.pt])
    else gatherCoordsFor j queryKeypoints trainingKeypoints rest queryCoords trainingCoords

/-- The outer loop of the batch `ransacFilter` (engine.cpp:186-220) over the reference
images `j` still to visit; the state is `homographies`, `good_matches` and the estimator
calls made so far. -/
def batchLoop (findHomography : Estimator α) (matchList : List (DMatch α))
    (queryKeypoints : List (KeyPoint α)) (trainingKeypoints : List (List (KeyPoint α))) :
    List Nat → VerifiedBatch α → Except Fault (VerifiedBatch α)
  | [], st => .ok st
  | j :: js, st =>
    match gatherCoordsFor j queryKeypoints trainingKeypoints matchList [] [] with
    | .error e => .error e
    | .ok (queryCoords, trainingCoords) =>
      if queryCoords.length ≠ 0 ∧ queryCoords.length ≠ 0 then
        let est := findHomography queryCoords trainingCoords
        match inlierLoop matchList est.2 0 st.matchList with
        | .error e => .error e
        | .ok good_matches =>
          batchLoop findHomography matchList queryKeypoints trainingKeypoints js
            ⟨good_matches, st.homographies ++ [est.1],
              st.calls ++ [(queryCoords, trainingCoords)]⟩
      else
        batchLoop findHomography matchList queryKeypoints trainingKeypoints js
          ⟨st.matchList, st.homographies ++ [Mat.eye3], st.calls⟩

/-- The batch overload of `ransacFilter` (engine.cpp:180-222), named apart from the
single-image overload. The argument `homographies` is the value of the in/out parameter
at the call. -/
def ransacFilterBatch (findHomography : Estimator α) (matchList : List (DMatch α))
    (queryKeypoints : List (KeyPoint α)) (trainingKeypoints : List (List (KeyPoint α)))
    (homographies : List (Mat α)) : Except Fault (VerifiedBatch α) :=
  batchLoop findHomography matchList queryKeypoints trainingKeypoints
    (List.range trainingKeypoints.length) ⟨[], homographies, []⟩

/-- The correspondences of reference image `j`, in input order. -/
def partitionOf (matchList : List (DMatch α)) (j : Nat) : List (DMatch α) :=
  matchList.filter (fun m => decide (m.imgIdx = (j : Int)))

/-- The query coordinates of a list of correspondences. -/
def queryPts (queryKeypoints : List (KeyPoint α)) (ms : List (DMatch α)) : List (Point2f α) :=
  ms.map (fun m => (queryKeypoints.getD m.queryIdx.toNat ⟨⟨0, 0⟩⟩).pt)

/-- The reference coordinates, in reference image `j`, of a list of correspondences. -/
def trainPts (trainingKeypoints : List (List (KeyPoint α))) (j : Nat) (ms : List (DMatch α)) :
    List (Point2f α) :=
  ms.map (fun m => ((trainingKeypoints.getD j []).getD m.trainIdx.toNat ⟨⟨0, 0⟩⟩).pt)

/-- The indices of a correspondence are inside the keypoint sets it refers to. -/
def validMatch (queryKeypoints : List (KeyPoint α)) (trainingKeypoints : List (List (KeyPoint α)))
    (m : DMatch α) : Prop :=
  0 ≤ m.queryIdx ∧ m.queryIdx.toNat < queryKeypoints.length ∧
  0 ≤ m.trainIdx ∧ m.trainIdx.toNat < (trainingKeypoints.getD m.imgIdx.toNat []).length

/-- The retained set as the batch verifier is specified: the correspondence at input
position `i`, of reference image `j`, is kept iff the mask the estimator returned for
partition `j` is non-zero at the position the correspondence has within that partition;
input order is kept. -/
def inliersByPartition (findHomography : Estimator α) (matchList : List (DMatch α))
    (queryKeypoints : List (KeyPoint α)) (trainingKeypoints : List (List (KeyPoint α))) :
    List (DMatch α) :=
  (List.range matchList.length).filterMap (fun i =>
    let m := matchList.getD i default
    let j := m.imgIdx.toNat
    let pos := ((matchList.take i).filter (fun m2 => decide (m2.imgIdx = m.imgIdx))).length
    let mask := (findHomography (queryPts queryKeypoints (partitionOf matchList j))
      (trainPts trainingKeypoints j (partitionOf matchList j))).2
    if 0 ≤ m.imgIdx ∧ j < trainingKeypoints.length ∧ mask.getD pos 0 ≠ 0 then some m else none)

/-- A sample estimator: the identity transform, and a mask that flags exactly the pairs
whose query point has `x = 0`. -/
def flagZeroX : Estimator α :=
  fun queryCoords _ => (Mat.eye3, queryCoords.map (fun p => if p.x = 0 then 1 else 0))

/-- A sample estimator: a diagonal transform whose first entry is the number of pairs it
was given, and a mask that flags every pair. -/
def flagAll : Estimator α :=
  fun queryCoords _ =>
    (⟨3, 3, [(queryCoords.length : α), 0, 0, 0, 1, 0, 0, 0, 1]⟩, queryCoords.map (fun _ => 1))

end Verifier

section Pipeline

variable {α : Type} [LinearOrderedField α]

end Pipeline

section Normalizer

variable {α : Type} [LinearOrderedField α]

/-- The element access `m.at<float>(i)` with a single row-major index. -/
def Mat.at (m : Mat α) (i : Nat) : α := m.data.getD i 0

/-- The element-wise absolute value `cv::abs(m)`. -/
def absMat (m : Mat α) : Mat α := ⟨m.rows, m.cols, m.data.map (fun x => |x|)⟩

/-- The row sums `cv::reduce(m, sums_vec, 1, CV_REDUCE_SUM, CV_32FC1)`: a column with one
entry per row of `m`, the sum of that row. -/
def reduceRowSum (m : Mat α) : Mat α :=
  ⟨m.rows, 1,
    (List.range m.rows).map (fun r =>
      ((List.range m.cols).map (fun c => m.at (r * m.cols + c))).sum)⟩

/-- The inner loop of `rootSIFT` (engine.cpp:73-76) for one `row`, on the element buffer
of `descriptors`. -/
def rootSIFTRow (sqrt : α → α) (cols : Nat) (sums_vec : Mat α) (data : List α) (row : Nat) :
    List α :=
  let offset := row * cols
  (List.range cols).foldl
    (fun d col => d.set (offset + col) (sqrt (d.getD (offset + col) 0 / sums_vec.at row)))
    data

/-- The function `rootSIFT` (engine.cpp:66-78), the square root of `<cmath>` being the
parameter `sqrt`: the new value of the in/out parameter `descriptors`. A row of zero sum
is filled with NaN by the source; the quotient here takes the field's value of `0 / 0`. -/
def rootSIFT (sqrt : α → α) (descriptors : Mat α) : Mat α :=
  let descriptors := absMat descriptors
  let sums_vec := reduceRowSum descriptors
  { descriptors with
    data := (List.range descriptors.rows).foldl
      (rootSIFTRow sqrt descriptors.cols sums_vec) descriptors.data }

end Normalizer

/-- The capabilities behind `Recogniser`: `cv::imread`, the SIFT detector's
`detectAndCompute` (the descriptors it yields) and `knnMatch` of the loaded
`SaveableFlannBasedMatcher` against its index. -/
structure QueryHost (α Image Index : Type) where
  imread : List Char → Image
  detectAndCompute : Image → Mat α
  knnMatch : Index → Mat α → Nat → List (List (DMatch α))

section Recogniser

variable {α : Type} [LinearOrderedField α] {Image Index : Type}

/-- The method `Recogniser::query` (recogniser.cpp:20-44); `index` is what the constructor
loaded into `matcher`. -/
def query (host : QueryHost α Image Index) (index : Index) (imagepath : List Char) :
    Except Fault Nat :=
  let queryImage := host.imread imagepath
  let descriptors := host.detectAndCompute queryImage
  let knn_matches := host.knnMatch index descriptors 2
  match loweFilter knn_matches with
  | .error e => .error e
  | .ok matchList => .ok matchList.length

/-- The query as it is specified: the count of ratio-filter survivors of the search run on
the extracted and normalized descriptors. -/
def queryNormalized (sqrt : α → α) (host : QueryHost α Image Index) (index : Index)
    (imagepath : List Char) : Except Fault Nat :=
  match loweFilter
      (host.knnMatch index (rootSIFT sqrt (host.detectAndCompute (host.imread imagepath))) 2) with
  | .error e => .error e
  | .ok matchList => .ok matchList.length

/-- An exact 2-nearest-neighbour search for one-component descriptors over an index of two
descriptors: both index rows, nearest first, at distance `|q - x|`. -/
def knnTwo (index query : Mat α) (_k : Nat) : List (List (DMatch α)) :=
  (List.range query.rows).map (fun r =>
    let d0 := |query.at r - index.at 0|
    let d1 := |query.at r - index.at 1|
    if d0 ≤ d1 then [⟨r, 0, 0, d0⟩, ⟨r, 1, 0, d1⟩] else [⟨r, 1, 0, d1⟩, ⟨r, 0, 0, d0⟩])

/-- A sample host: every image has the two one-component descriptors 4 and 9. -/
def twoDescriptorHost : QueryHost α Unit (Mat α) :=
  ⟨fun _ => (), fun _ => ⟨2, 1, [4, 9]⟩, knnTwo⟩

end Recogniser

/-! ### The descriptor index store -/

/-- The segments read by `while(std::getline(stream, segment, delim))`: the text is cut at
each `delim`; a last segment without delimiter is read only if it is not empty. -/
def getlines (delim : Char) : List Char → List (List Char)
  | [] => []
  | c :: cs =>
    if c = delim then [] :: getlines delim cs
    else
      match getlines delim cs with
      | [] => [[c]]
      | seg :: rest => (c :: seg) :: rest

/-- A `std::string` passed through `c_str()` and back: it ends at the first NUL. -/
def cstr (s : List Char) : List Char := s.takeWhile (fun c => c ≠ Char.ofNat 0)

/-- The function `splitString` (feature_saver.cpp:12-22). -/
def splitString (str : List Char) (delimiter : Char) : List (List Char) :=
  getlines delimiter (cstr str)

/-- The line loop of `saveFeatures` (feature_saver.cpp:84-91): `last_line` starts empty and
is overwritten by every line read. -/
def lastLine (content : List Char) : List Char :=
  (getlines '\n' content).foldl (fun _ line => line) []

/-- The predicate `isspace` of the C locale. -/
def isspace (c : Char) : Bool :=
  c = ' ' || c = '\t' || c = '\n' || c = Char.ofNat 11 || c = Char.ofNat 12 || c = '\r'

/-- The predicate `isdigit`. -/
def isdigit (c : Char) : Bool := decide ('0'.toNat ≤ c.toNat ∧ c.toNat ≤ '9'.toNat)

/-- The value of a run of decimal digits. -/
def digitsValue (ds : List Char) : Nat :=
  ds.foldl (fun v c => 10 * v + (c.toNat - '0'.toNat)) 0

/-- The function `std::stol(str)`: leading white space, an optional sign, decimal digits;
`invalid_argument` without a digit, `out_of_range` outside a 64-bit `long`. -/
def stol (str : List Char) : Except Fault Int :=
  let s := str.dropWhile isspace
  let signed : Bool × List Char :=
    match s with
    | '-' :: t => (true, t)
    | '+' :: t => (false, t)
    | _ => (false, s)
  let ds := signed.2.takeWhile isdigit
  if ds = [] then .error Fault.invalid_argument
  else
    let n : Int := if signed.1 then -(digitsValue ds : Int) else (digitsValue ds : Int)
    if n < -(2 : Int) ^ 63 ∨ (2 : Int) ^ 63 ≤ n then .error Fault.out_of_range else .ok n

/-- The decimal digit `d` as a character. -/
def digitChar (d : Nat) : Char := Char.ofNat ('0'.toNat + d)

/-- The decimal digits of `n`, most significant first; `fuel` bounds the number of digits. -/
def showNatAux : Nat → Nat → List Char
  | 0, _ => []
  | fuel + 1, n =>
    if n < 10 then [digitChar n] else showNatAux fuel (n / 10) ++ [digitChar (n % 10)]

/-- The text `operator<<` writes for a non-negative integer. -/
def showNat (n : Nat) : List Char := showNatAux (n + 1) n

/-- The text `operator<<` writes for a `long`. -/
def showLong (n : Int) : List Char :=
  if n < 0 then '-' :: showNat n.natAbs else showNat n.toNat

/-- The persisted state: the matcher files written by `SaveableFlannBasedMatcher::store`
and the content of the bins file `out_filename` (empty when the file does not exist). -/
structure Disk (σ : Type) where
  index : σ
  ledger : List Char
deriving DecidableEq

/-- How a call of `saveFeatures` ends: it returned early because an image could not be
read, it returned after the ledger write, or it raised an exception; each with the
persisted state it leaves. -/
inductive Outcome (σ : Type)
  | unreadable (disk : Disk σ)
  | saved (disk : Disk σ)
  | raised (fault : Fault) (disk : Disk σ)
deriving DecidableEq

/-- The capabilities behind `FeatureSaver`: `cv::imread` (`none` when `img.data == NULL`),
the descriptors the SIFT detector computes for an image, the square root of `<cmath>`,
and the effect on the matcher files of creating a `SaveableFlannBasedMatcher` of a given
name, adding the descriptors, training and calling `store`. -/
structure SaverHost (α Image σ : Type) where
  imread : List Char → Option Image
  describe : Image → Mat α
  sqrt : α → α
  store : σ → List Char → List (Mat α) → σ

section FeatureSaver

variable {α : Type} [LinearOrderedField α] {Image σ : Type}

/-- The image loop of `saveFeatures` (feature_saver.cpp:35-44): `none` is the early
`return` at the first image that cannot be read. -/
def readImages (host : SaverHost α Image σ) (img_folder : List Char) :
    List (List Char) → List Image → Option (List Image)
  | [], images => some images
  | filename :: rest, images =>
    match host.imread (img_folder ++ filename) with
    | none => none
    | some img => readImages host img_folder rest (images ++ [img])

/-- The computation of `first_bin` (feature_saver.cpp:92-98) from `last_line`. The sum
`stol(...) + 1` is formed in a 64-bit `long`: for the value `LONG_MAX` it overflows, which
is undefined behaviour (on the usual targets the sum wraps to `-2^63`). -/
def firstBin (last_line : List Char) : Except Fault Int :=
  if (splitString last_line ',').length > 0 then
    match vecAt (splitString last_line ',') 3 with
    | .error e => .error e
    | .ok field =>
      match stol field with
      | .error e => .error e
      | .ok v =>
        if v + 1 < (2 : Int) ^ 63 then .ok (v + 1) else .error Fault.undefined_behaviour
  else .ok 0

/-- The write loop of `saveFeatures` (feature_saver.cpp:107-118) over the descriptor
matrices from index `i` on; `size` is `descriptors.size()`, `out` the text written to the
bins file so far. -/
def writeLoop (filename_list : List (List Char)) (first_bin : Int) (size : Nat) :
    List (Mat α) → Nat → Int → List Char → Except Fault (List Char)
  | [], _, _, out => .ok out
  | d :: rest, i, last_bin, out =>
    if i = size - 1 then
      match vecAt filename_list (i : Int) with
      | .error e => .error e
      | .ok filename =>
        match vecAt (splitString filename ',') 0 with
        | .error e => .error e
        | .ok lat =>
          match vecAt (splitString filename ',') 1 with
          | .error e => .error e
          | .ok lng =>
            writeLoop filename_list first_bin size rest (i + 1) (last_bin + d.rows)
              (out ++ (lat ++ [','] ++ lng ++ [','] ++ showLong first_bin ++ [',']
                ++ showLong (last_bin + d.rows - 1) ++ ['\n']))
    else writeLoop filename_list first_bin size rest (i + 1) (last_bin + d.rows) out

/-- The method `FeatureSaver::saveFeatures` (feature_saver.cpp:26-121) as a transformer
of the persisted state; the bins file `out_filename` is the `ledger` of `disk`. -/
def saveFeatures (host : SaverHost α Image σ) (img_folder img_filenames out_folder : List Char)
    (disk : Disk σ) : Outcome σ :=
  let filename_list := splitString img_filenames ':'
  match readImages host (cstr img_folder) filename_list [] with
  | none => .unreadable disk
  | some images =>
    match vecAt filename_list 0 with
    | .error e => .raised e disk
    | .ok first =>
      match vecAt (splitString first ',') 0 with
      | .error e => .raised e disk
      | .ok seg0 =>
        match vecAt (splitString first ',') 1 with
        | .error e => .raised e disk
        | .ok seg1 =>
          let matcher_name := cstr (cstr out_folder ++ seg0 ++ [','] ++ seg1)
          let descriptors := (images.map host.describe).map (rootSIFT host.sqrt)
          let stored : Disk σ := ⟨host.store disk.index matcher_name descriptors, disk.ledger⟩
          match firstBin (lastLine stored.ledger) with
          | .error e => .raised e stored
          | .ok first_bin =>
            match writeLoop filename_list first_bin descriptors.length descriptors 0
                first_bin [] with
            | .error e => .raised e stored
            | .ok written => .saved ⟨stored.index, stored.ledger ++ written⟩

/-- One call of `saveFeatures`: its three path arguments. -/
structure Batch where
  img_folder : List Char
  img_filenames : List Char
  out_folder : List Char

/-- A sequence of ingestions into the same bins file, each of which must save. -/
def ingestAll (host : SaverHost α Image σ) : Disk σ → List Batch → Option (Disk σ)
  | disk, [] => some disk
  | disk, b :: bs =>
    match saveFeatures host b.img_folder b.img_filenames b.out_folder disk with
    | .saved disk' => ingestAll host disk' bs
    | _ => none

/-- The total descriptor count of a batch: the sum of the descriptor row counts of its
images. -/
def batchCount (host : SaverHost α Image σ) (b : Batch) : Nat :=
  (((splitString b.img_filenames ':').filterMap
      (fun f => host.imread (cstr b.img_folder ++ f))).map
    (fun img => (host.describe img).rows)).sum

/-- The location tag of a batch: the first two comma-separated fields of its last file
name. -/
def batchTag (b : Batch) : List Char × List Char :=
  let list := splitString ((splitString b.img_filenames ':').getLast?.getD []) ','
  (list.getD 0 [], list.getD 1 [])

/-- A ledger line `lat,lng,startBin,endBin` with its line end. -/
def ledgerLine (tag : List Char × List Char) (startBin endBin : Int) : List Char :=
  tag.1 ++ [','] ++ tag.2 ++ [','] ++ showLong startBin ++ [','] ++ showLong endBin ++ ['\n']

/-- The start bin the claim assigns to the `k`-th ingestion, counted from 0: the sum of the
counts of the ingestions before it. -/
def startBinOf (host : SaverHost α Image σ) (batches : List Batch) (k : Nat) : Int :=
  (((batches.take k).map (batchCount host)).sum : Nat)

/-- The end bin the claim assigns to the `k`-th ingestion: its start bin plus its count
minus one. -/
def endBinOf (host : SaverHost α Image σ) (batches : List Batch) (k : Nat) : Int :=
  startBinOf host batches k + (batchCount host (batches.getD k ⟨[], [], []⟩) : Nat) - 1

/-- The ledger text the claim assigns to a sequence of ingestions that starts at bin
`start`: one line per batch, each batch starting where the previous one ended. -/
def ledgerFrom (host : SaverHost α Image σ) : Int → List Batch → List Char
  | _, [] => []
  | start, b :: bs =>
    ledgerLine (batchTag b) start (start + (batchCount host b : Nat) - 1)
      ++ ledgerFrom host (start + (batchCount host b : Nat)) bs

end FeatureSaver

/-- A sample host: the file `bad` cannot be read, every other file decodes to an image
with as many one-component descriptors as its path has characters; the square root is
replaced by the identity map (the ledger does not read descriptor values) and nothing is
kept of the stored matchers. -/
def lengthHost : SaverHost ℚ Nat Unit :=
  ⟨fun path => if path = "bad".toList then none else some path.length,
   fun n => ⟨n, 1, List.replicate n 1⟩, fun x => x, fun _ _ _ => ()⟩

/-- Three batches with 10, 5 and 6 + 14 = 20 descriptors under `lengthHost`. -/
def threeBatches : List Batch :=
  [⟨[], "1,2,ab.jpg".toList, "out/".toList⟩, ⟨[], "3,4,x".toList, "out/".toList⟩,
   ⟨[], "5,6,ab:5,6,abcdefghij".toList, "out/".toList⟩]

/-- A location tag whose two fields hold neither a comma nor a NUL. -/
def WellTagged (tag : List Char × List Char) : Prop :=
  ',' ∉ tag.1 ∧ Char.ofNat 0 ∉ tag.1 ∧ ',' ∉ tag.2 ∧ Char.ofNat 0 ∉ tag.2

/-- The state of a ledger written only by `saveFeatures`, `next` being the bin after the
last one recorded: the ledger is empty and `next = 0`, or it ends with a ledger line
whose end bin is `next - 1`, which follows a line end or starts the file. -/
def LedgerInv (ledger : List Char) (next : Int) : Prop :=
  (ledger = [] ∧ next = 0) ∨
  ∃ pre tag start, ledger = pre ++ ledgerLine tag start (next - 1) ∧
    (pre = [] ∨ ∃ p, pre = p ++ ['\n']) ∧ WellTagged tag

section Threshold

variable {α : Type} [LinearOrderedField α]

end Threshold

theorem filter_map_range_getD {β γ : Type} (l : List β) (d : β) (p : β → Bool) (f : β → γ) :
    ((List.range l.length).filter (fun i => p (l.getD i d))).map (fun i => f (l.getD i d))
      = (l.filter p).map f := by
  induction l using List.reverseRecOn with
  | nil => simp
  | append_singleton l a ih =>
    have h1 : ∀ i ∈ List.range l.length, (l ++ [a]).getD i d = l.getD i d := by
      intro i hi
      have hi2 : i < l.length := List.mem_range.mp hi
      simp [List.getD_eq_getElem?_getD, List.getElem?_append_left hi2]
    have h2 : (l ++ [a]).getD l.length d = a := by
      simp [List.getD_eq_getElem?_getD]
    rw [List.length_append, List.length_singleton, List.range_succ, List.filter_append,
      List.map_append, List.filter_append, List.map_append, ← ih]
    congr 1
    · rw [List.filter_congr (fun i hi => by rw [h1 i hi])]
      apply List.map_congr_left
      intro i hi
      rw [h1 i (List.mem_filter.mp hi).1]
    · by_cases hp : p a = true
      · simp [List.filter_cons, h2, hp]
      · simp [List.filter_cons, h2, hp]

theorem log2_eq (r : ℚ) (k : ℤ) (h1 : (2 : ℚ) ^ k ≤ r) (h2 : r < (2 : ℚ) ^ (k + 1)) :
    Int.log 2 r = k := by
  have hr : 0 < r := lt_of_lt_of_le (by positivity) h1
  apply le_antisymm
  · have := (Int.lt_zpow_iff_log_lt (b := 2) (by norm_num) hr).mp h2
    omega
  · exact (Int.zpow_le_iff_le_log (b := 2) (by norm_num) hr).mp h1

theorem roundF32_ratio_one : roundF32 (ratioF32 * 1) = 13421773 / 16777216 := by
  have hl : Int.log 2 |ratioF32 * 1| = -1 := by
    apply log2_eq <;> norm_num [ratioF32, abs_of_pos]
  simp only [roundF32, ulpF32, hl]
  norm_num [roundHalfEven, ratioF32]

theorem roundF32_ratio_two : roundF32 (ratioF32 * 2) = 13421773 / 8388608 := by
  have hl : Int.log 2 |ratioF32 * 2| = 0 := by
    apply log2_eq <;> norm_num [ratioF32, abs_of_pos]
  simp only [roundF32, ulpF32, hl]
  norm_num [roundHalfEven, ratioF32]

theorem roundF32_ratio_three : roundF32 (ratioF32 * 3) = 10066330 / 4194304 := by
  have hl : Int.log 2 |ratioF32 * 3| = 1 := by
    apply log2_eq <;> norm_num [ratioF32, abs_of_pos]
  simp only [roundF32, ulpF32, hl]
  norm_num [roundHalfEven, ratioF32]

theorem roundF32_ratio_five : roundF32 (ratioF32 * 5) = 4 := by
  have hl : Int.log 2 |ratioF32 * 5| = 2 := by
    apply log2_eq <;> norm_num [ratioF32, abs_of_pos]
  simp only [roundF32, ulpF32, hl]
  norm_num [roundHalfEven, ratioF32]

theorem roundF32_ratio_min_normal :
    roundF32 (ratioF32 * 2 ^ (-126 : ℤ)) = 6710886 * 2 ^ (-149 : ℤ) := by
  have hl : Int.log 2 |ratioF32 * 2 ^ (-126 : ℤ)| = -127 := by
    apply log2_eq <;> norm_num [ratioF32, abs_of_pos]
  simp only [roundF32, ulpF32, hl]
  norm_num [roundHalfEven, ratioF32]

theorem loweFilterLoopF32_eq (knn : List (List (DMatch ℚ))) (h : ∀ c ∈ knn, 2 ≤ c.length)
    (good : List (DMatch ℚ)) :
    loweFilterLoopF32 knn good
      = .ok (good ++ (knn.filter (fun c => decide ((c.getD 0 default).distance
              ≤ roundF32 (ratioF32 * (c.getD 1 default).distance)))).map
            (fun c => c.getD 0 default)) := by
  induction knn generalizing good with
  | nil => simp [loweFilterLoopF32]
  | cons c rest ih =>
    have hrest : ∀ c ∈ rest, 2 ≤ c.length := fun d hd => h d (List.mem_cons_of_mem _ hd)
    have hc : 2 ≤ c.length := h c (List.mem_cons_self _ _)
    match c, hc with
    | c0 :: c1 :: tl, _ =>
      by_cases hr : c0.distance ≤ roundF32 (ratioF32 * c1.distance)
      · simp [loweFilterLoopF32, hr, ih hrest, List.filter_cons]
      · simp [loweFilterLoopF32, hr, ih hrest, List.filter_cons]

theorem loweFilterLoopF32_eq_exact (knn : List (List (DMatch ℚ))) (good : List (DMatch ℚ))
    (h : ∀ c ∈ knn, ((c.getD 0 default).distance ≤ roundF32 (ratioF32 * (c.getD 1 default).distance)
      ↔ (c.getD 0 default).distance ≤ 0.8 * (c.getD 1 default).distance)) :
    loweFilterLoopF32 knn good = loweFilterLoop knn good := by
  induction knn generalizing good with
  | nil => rfl
  | cons c rest ih =>
    have hrest := fun d hd => h d (List.mem_cons_of_mem _ hd)
    have hc := h c (List.mem_cons_self _ _)
    match c, hc with
    | [], _ => rfl
    | [_], _ => rfl
    | c0 :: c1 :: tl, hc =>
      simp only [List.getD_cons_zero, List.getD_cons_succ] at hc
      by_cases hr : c0.distance ≤ roundF32 (ratioF32 * c1.distance)
      · simp [loweFilterLoopF32, loweFilterLoop, hr, hc.mp hr, ih _ hrest]
      · have hr2 : ¬ c0.distance ≤ 0.8 * c1.distance := fun h2 => hr (hc.mpr h2)
        simp [loweFilterLoopF32, loweFilterLoop, hr, hr2, ih _ hrest]

/-- The binary32 filter and the exact-arithmetic filter return the same list whenever no
candidate pair lies between the two tests. -/
theorem loweFilterF32_eq_exact (knn : List (List (DMatch ℚ)))
    (h : ∀ c ∈ knn, ((c.getD 0 default).distance ≤ roundF32 (ratioF32 * (c.getD 1 default).distance)
      ↔ (c.getD 0 default).distance ≤ 0.8 * (c.getD 1 default).distance)) :
    loweFilterF32 knn = loweFilter knn :=
  loweFilterLoopF32_eq_exact knn [] h

/-- C1 fails as stated: the distances are the `float`s d1 = 13421773 / 2^24 (the value of
`0.8f`) and d2 = 1. The product `0.8f * 1.0f` is d1 itself, so the code's test holds and
the candidate is retained, although d1 ≤ 0.8 * d2 is false. -/
theorem loweFilterF32_keeps_above_ratio :
    loweFilterF32 [[⟨0, 0, 0, 13421773 / 16777216⟩, ⟨0, 1, 0, 1⟩]]
      = .ok [⟨0, 0, 0, 13421773 / 16777216⟩]
    ∧ ¬ ((13421773 / 16777216 : ℚ) ≤ 0.8 * 1) := by
  constructor
  · simp only [loweFilterF32, loweFilterLoopF32, roundF32_ratio_one]
    norm_num
  · norm_num

/-- C1, amended. `loweFilter` on candidate lists of at least two entries each returns
exactly the first candidates `knnMatches[i][0]`, for the indices `i` in increasing order
at which `distance(knnMatches[i][0]) ≤ fl(0.8f * distance(knnMatches[i][1]))`, where
`0.8f` = 13421773 / 2^24 is the `float` constant and `fl` rounds the product to binary32
(to nearest, ties to even); the pair of distances (1.0, 2.0) is retained and the pair
(1.8f, 2.0) is discarded. The rounding is pinned at a product that rounds up (by 3), one
that rounds down (by 5) and a tie (by 2^-126). -/
theorem loweFilterF32_ratio_test :
    (∀ (knnMatches : List (List (DMatch ℚ))),
      (∀ c ∈ knnMatches, 2 ≤ c.length) →
      loweFilterF32 knnMatches
        = .ok (((List.range knnMatches.length).filter
              (fun i => decide ((cand knnMatches i 0).distance
                ≤ roundF32 (ratioF32 * (cand knnMatches i 1).distance)))).map
              (fun i => cand knnMatches i 0)))
    ∧ (∀ q t q2 t2 i i2 : Int,
        loweFilterF32 [[⟨q, t, i, 1⟩, ⟨q2, t2, i2, 2⟩]] = .ok [⟨q, t, i, 1⟩]
        ∧ loweFilterF32 [[⟨q, t, i, 15099494 / 8388608⟩, ⟨q2, t2, i2, 2⟩]] = .ok [])
    ∧ roundF32 (ratioF32 * 3) = 10066330 / 4194304
    ∧ roundF32 (ratioF32 * 5) = 4
    ∧ roundF32 (ratioF32 * 2 ^ (-126 : ℤ)) = 6710886 * 2 ^ (-149 : ℤ) := by
  refine ⟨?_, ?_, roundF32_ratio_three, roundF32_ratio_five, roundF32_ratio_min_normal⟩
  · intro knn h
    have key := filter_map_range_getD knn []
      (fun c => decide ((c.getD 0 default).distance
        ≤ roundF32 (ratioF32 * (c.getD 1 default).distance)))
      (fun c => c.getD 0 default)
    simp only [loweFilterF32, cand, loweFilterLoopF32_eq knn h, List.nil_append]
    rw [← key]
  · intro q t q2 t2 i i2
    constructor
    · simp only [loweFilterF32, loweFilterLoopF32, roundF32_ratio_two]
      norm_num
    · simp only [loweFilterF32, loweFilterLoopF32, roundF32_ratio_two]
      norm_num

theorem roundF32_ratio_ten : roundF32 (ratioF32 * 10) = 8 := by
  have hl : Int.log 2 |ratioF32 * 10| = 3 := by
    apply log2_eq <;> norm_num [ratioF32, abs_of_pos]
  simp only [roundF32, ulpF32, hl]
  norm_num [roundHalfEven, ratioF32]

/-- Witness for the amended C1: three candidate lists; the first passes, the second fails
(9 > fl(0.8f * 10) = 8), the third lies on the boundary 4 = fl(0.8f * 5) and passes. -/
theorem loweFilterF32_ratio_test_witness :
    (∀ c ∈ ([[⟨0, 5, 0, 1⟩, ⟨0, 6, 0, 2⟩],
             [⟨1, 7, 0, 9⟩, ⟨1, 8, 0, 10⟩, ⟨1, 9, 0, 11⟩],
             [⟨2, 3, 0, 4⟩, ⟨2, 4, 0, 5⟩]] : List (List (DMatch ℚ))), 2 ≤ c.length)
    ∧ loweFilterF32 [[⟨0, 5, 0, 1⟩, ⟨0, 6, 0, 2⟩],
                [⟨1, 7, 0, 9⟩, ⟨1, 8, 0, 10⟩, ⟨1, 9, 0, 11⟩],
                [⟨2, 3, 0, 4⟩, ⟨2, 4, 0, 5⟩]]
      = .ok [⟨0, 5, 0, 1⟩, ⟨2, 3, 0, 4⟩] := by
  refine ⟨by simp, ?_⟩
  rw [loweFilterF32_ratio_test.1 _ (by simp)]
  simp [cand, List.range_succ, List.filter_cons, roundF32_ratio_two, roundF32_ratio_five,
    roundF32_ratio_ten]
  norm_num

theorem vecAt_ok {β : Type} (v : List β) (i : Int) (b d : β) (h : vecAt v i = .ok b) :
    v.getD i.toNat d = b := by
  unfold vecAt at h
  split at h
  · cases h
  · split at h
    · next c hc =>
      cases h
      rw [List.get?_eq_getElem?] at hc
      simp [List.getD_eq_getElem?_getD, hc]
    · cases h

theorem vecAt_total {β : Type} (v : List β) (i : Int) (h0 : 0 ≤ i) (h1 : i.toNat < v.length) :
    ∃ b, vecAt v i = .ok b := by
  unfold vecAt
  rw [if_neg (not_lt.mpr h0)]
  rw [List.get?_eq_getElem?, List.getElem?_eq_getElem h1]
  exact ⟨_, rfl⟩

theorem gatherCoordsFor_ok {α : Type} [LinearOrderedField α] (j : Nat) (qk : List (KeyPoint α)) (tks : List (List (KeyPoint α)))
    (ms : List (DMatch α)) (q t q' t' : List (Point2f α))
    (h : gatherCoordsFor j qk tks ms q t = .ok (q', t')) :
    q' = q ++ queryPts qk (partitionOf ms j) ∧ t' = t ++ trainPts tks j (partitionOf ms j) := by
  induction ms generalizing q t with
  | nil =>
    simp only [gatherCoordsFor, Except.ok.injEq, Prod.mk.injEq] at h
    simp [partitionOf, queryPts, trainPts, h.1, h.2]
  | cons m rest ih =>
    unfold gatherCoordsFor at h
    by_cases hj : m.imgIdx = (j : Int)
    · rw [if_pos hj] at h
      split at h
      · cases h
      · next kq hkq =>
        split at h
        · cases h
        · next tk htk =>
          split at h
          · cases h
          · next kt hkt =>
            obtain ⟨h1, h2⟩ := ih _ _ h
            have e1 := vecAt_ok qk m.queryIdx kq ⟨⟨0, 0⟩⟩ hkq
            have e2 := vecAt_ok tks (j : Int) tk [] htk
            have e3 := vecAt_ok tk m.trainIdx kt ⟨⟨0, 0⟩⟩ hkt
            simp only [Int.toNat_ofNat] at e2
            subst h1 h2 e1 e3 e2
            simp [partitionOf, queryPts, trainPts, List.filter_cons, hj]
    · rw [if_neg hj] at h
      obtain ⟨h1, h2⟩ := ih _ _ h
      subst h1 h2
      simp [partitionOf, queryPts, trainPts, List.filter_cons, hj]

theorem gatherCoordsFor_total {α : Type} (j : Nat) (qk : List (KeyPoint α))
    (tks : List (List (KeyPoint α))) (hj : j < tks.length)
    (ms : List (DMatch α)) (hv : ∀ m ∈ ms, m.imgIdx = (j : Int) → validMatch qk tks m)
    (q t : List (Point2f α)) :
    ∃ r, gatherCoordsFor j qk tks ms q t = .ok r := by
  induction ms generalizing q t with
  | nil => exact ⟨_, rfl⟩
  | cons m rest ih =>
    have hrest : ∀ m ∈ rest, m.imgIdx = (j : Int) → validMatch qk tks m :=
      fun m hm => hv m (List.mem_cons_of_mem _ hm)
    unfold gatherCoordsFor
    by_cases hm : m.imgIdx = (j : Int)
    · rw [if_pos hm]
      obtain ⟨hq0, hq1, ht0, ht1⟩ := hv m (List.mem_cons_self _ _) hm
      obtain ⟨kq, hkq⟩ := vecAt_total qk m.queryIdx hq0 hq1
      obtain ⟨tk, htk⟩ := vecAt_total tks (j : Int) (Int.natCast_nonneg j) (by simpa using hj)
      have e2 := vecAt_ok tks (j : Int) tk [] htk
      simp only [Int.toNat_ofNat] at e2
      rw [hm, Int.toNat_ofNat, e2] at ht1
      obtain ⟨kt, hkt⟩ := vecAt_total tk m.trainIdx ht0 ht1
      simp only [hkq, htk, hkt]
      exact ih hrest _ _
    · rw [if_neg hm]
      exact ih hrest _ _

theorem inlierLoop_total {α : Type} (ms : List (DMatch α)) (mask : List Nat) (i : Nat)
    (good : List (DMatch α)) (h : i + mask.length ≤ ms.length) :
    ∃ r, inlierLoop ms mask i good = .ok r := by
  induction mask generalizing i good with
  | nil => exact ⟨_, rfl⟩
  | cons b mask ih =>
    simp only [List.length_cons] at h
    unfold inlierLoop
    by_cases hb : b ≠ 0
    · rw [if_pos hb]
      have hi : i < ms.length := by omega
      rw [List.get?_eq_getElem?, List.getElem?_eq_getElem hi]
      exact ih _ _ (by omega)
    · rw [if_neg hb]
      exact ih _ _ (by omega)

/-- The transform the batch verifier records for reference image `j`. -/
theorem batchLoop_homographies {α : Type} [LinearOrderedField α] (est : Estimator α) (ms : List (DMatch α))
    (qk : List (KeyPoint α)) (tks : List (List (KeyPoint α))) (js : List Nat)
    (st r : VerifiedBatch α) (h : batchLoop est ms qk tks js st = .ok r) :
    r.homographies = st.homographies ++ js.map (fun j =>
      if partitionOf ms j = [] then Mat.eye3
      else (est (queryPts qk (partitionOf ms j)) (trainPts tks j (partitionOf ms j))).1) := by
  induction js generalizing st with
  | nil =>
    simp only [batchLoop, Except.ok.injEq] at h
    simp [← h]
  | cons j js ih =>
    unfold batchLoop at h
    split at h
    · cases h
    · next q t hg =>
      obtain ⟨hq, ht⟩ := gatherCoordsFor_ok j qk tks ms [] [] q t hg
      simp only [List.nil_append] at hq ht
      by_cases hp : partitionOf ms j = []
      · have hlen : q.length = 0 := by simp [hq, hp, queryPts]
        rw [if_neg (by simp [hlen])] at h
        rw [ih _ h]
        simp [hp]
      · have hlen : q.length ≠ 0 := by
          simp only [hq, queryPts, List.length_map, ne_eq, List.length_eq_zero]
          exact hp
        rw [if_pos ⟨hlen, hlen⟩] at h
        dsimp only at h
        split at h
        · cases h
        · next good hgood =>
          rw [ih _ h]
          simp [hp, hq, ht]

theorem batchLoop_total {α : Type} [LinearOrderedField α] (est : Estimator α) (ms : List (DMatch α))
    (qk : List (KeyPoint α)) (tks : List (List (KeyPoint α))) (js : List Nat)
    (hjs : ∀ j ∈ js, j < tks.length)
    (hv : ∀ m ∈ ms, 0 ≤ m.imgIdx → m.imgIdx.toNat < tks.length → validMatch qk tks m)
    (hmask : ∀ j < tks.length,
      (est (queryPts qk (partitionOf ms j)) (trainPts tks j (partitionOf ms j))).2.length
        ≤ ms.length)
    (st : VerifiedBatch α) :
    ∃ r, batchLoop est ms qk tks js st = .ok r := by
  induction js generalizing st with
  | nil => exact ⟨_, rfl⟩
  | cons j js ih =>
    have hj : j < tks.length := hjs j (List.mem_cons_self _ _)
    have hjs2 : ∀ j ∈ js, j < tks.length := fun k hk => hjs k (List.mem_cons_of_mem _ hk)
    have hvj : ∀ m ∈ ms, m.imgIdx = (j : Int) → validMatch qk tks m := by
      intro m hm hmj
      exact hv m hm (by rw [hmj]; exact Int.natCast_nonneg j) (by rw [hmj]; simpa using hj)
    obtain ⟨⟨q, t⟩, hg⟩ := gatherCoordsFor_total j qk tks hj ms hvj [] []
    obtain ⟨hq, ht⟩ := gatherCoordsFor_ok j qk tks ms [] [] q t hg
    simp only [List.nil_append] at hq ht
    unfold batchLoop
    simp only [hg]
    by_cases hlen : q.length ≠ 0 ∧ q.length ≠ 0
    · rw [if_pos hlen]
      have hm := hmask j hj
      rw [← hq, ← ht] at hm
      obtain ⟨good, hgood⟩ := inlierLoop_total ms (est q t).2 0 st.matchList (by omega)
      simp only [hgood]
      exact ih hjs2 _
    · rw [if_neg hlen]
      exact ih hjs2 _

/-- C3 fails as stated: with three correspondences the single-image verifier returns at its
guard, and a homography passed in as the default-constructed empty matrix comes back
empty, which is not the 3x3 identity. -/
theorem ransacFilter_short_circuit_not_identity :
    ransacFilter (fun _ _ => ((Mat.eye3 : Mat ℚ), []))
        [⟨0, 0, 0, 1⟩, ⟨1, 1, 0, 1⟩, ⟨2, 2, 0, 1⟩] [] [] Mat.empty
      = .ok ⟨[⟨0, 0, 0, 1⟩, ⟨1, 1, 0, 1⟩, ⟨2, 2, 0, 1⟩], Mat.empty, []⟩
    ∧ (Mat.empty : Mat ℚ) ≠ Mat.eye3 := by
  constructor
  · simp [ransacFilter]
  · simp [Mat.empty, Mat.eye3]

/-- C3, amended. For fewer than 4 correspondences, whatever the keypoint sets and the
estimator are, the single-image `ransacFilter` returns normally with the correspondence
list unchanged, makes no call to the estimator, and leaves the homography exactly as the
caller passed it. -/
theorem ransacFilter_short_circuit {α : Type} [LinearOrderedField α]
    (findHomography : Estimator α) (matchList : List (DMatch α))
    (queryKeypoints trainingKeypoints : List (KeyPoint α)) (homography : Mat α)
    (h : matchList.length < 4) :
    ransacFilter findHomography matchList queryKeypoints trainingKeypoints homography
      = .ok ⟨matchList, homography, []⟩ := by
  simp [ransacFilter, h]

/-- Witness for the amended C3: three correspondences with indices outside the (empty)
keypoint sets and the identity passed in. -/
theorem ransacFilter_short_circuit_witness :
    ([⟨7, 8, 0, 1⟩, ⟨1, 1, 0, 2⟩, ⟨2, 2, 0, 3⟩] : List (DMatch ℚ)).length < 4
    ∧ ransacFilter (fun _ _ => ((Mat.empty : Mat ℚ), [1, 1, 1]))
        [⟨7, 8, 0, 1⟩, ⟨1, 1, 0, 2⟩, ⟨2, 2, 0, 3⟩] [] [] Mat.eye3
      = .ok ⟨[⟨7, 8, 0, 1⟩, ⟨1, 1, 0, 2⟩, ⟨2, 2, 0, 3⟩], Mat.eye3, []⟩ :=
  ⟨by decide, ransacFilter_short_circuit _ _ _ _ _ (by decide)⟩

/-- C8. For every call of the batch `ransacFilter` with an empty homography list and `n`
reference keypoint sets: the call returns whenever the indices of the correspondences are
inside the keypoint sets and no inlier mask is longer than the correspondence list, and
whenever it returns, the homography list has exactly `n` entries, entry `j` being the
estimator's transform for the correspondences with `imgIdx = j`, or the 3x3 identity when
there is no such correspondence. -/
theorem ransacFilterBatch_homographies_aligned {α : Type} [LinearOrderedField α]
    (findHomography : Estimator α) (matchList : List (DMatch α))
    (queryKeypoints : List (KeyPoint α)) (trainingKeypoints : List (List (KeyPoint α))) :
    ((∀ m ∈ matchList, 0 ≤ m.imgIdx → m.imgIdx.toNat < trainingKeypoints.length →
          validMatch queryKeypoints trainingKeypoints m) →
      (∀ j < trainingKeypoints.length,
        (findHomography (queryPts queryKeypoints (partitionOf matchList j))
          (trainPts trainingKeypoints j (partitionOf matchList j))).2.length
            ≤ matchList.length) →
      ∃ r, ransacFilterBatch findHomography matchList queryKeypoints trainingKeypoints []
            = .ok r)
    ∧ (∀ r, ransacFilterBatch findHomography matchList queryKeypoints trainingKeypoints []
            = .ok r →
        r.homographies.length = trainingKeypoints.length ∧
        ∀ j < trainingKeypoints.length,
          r.homographies.get? j = some
            (if partitionOf matchList j = [] then Mat.eye3
             else (findHomography (queryPts queryKeypoints (partitionOf matchList j))
                    (trainPts trainingKeypoints j (partitionOf matchList j))).1)) := by
  constructor
  · intro hv hmask
    exact batchLoop_total findHomography matchList queryKeypoints trainingKeypoints _
      (fun j hj => List.mem_range.mp hj) hv hmask _
  · intro r hr
    have key := batchLoop_homographies findHomography matchList queryKeypoints
      trainingKeypoints _ _ r hr
    simp only [List.nil_append] at key
    constructor
    · simp [key]
    · intro j hj
      rw [key, List.get?_eq_getElem?, List.getElem?_map, List.getElem?_range hj]
      rfl

/-- Witness for C8: three reference images, the second without correspondences; the call
returns, the list has three entries and the second is the identity. -/
theorem ransacFilterBatch_homographies_aligned_witness :
    ∃ r, ransacFilterBatch (flagAll : Estimator ℚ)
          [⟨0, 0, 0, 1⟩, ⟨1, 1, 2, 1⟩, ⟨0, 0, 2, 1⟩] [⟨⟨5, 5⟩⟩, ⟨⟨0, 0⟩⟩]
          [[⟨⟨1, 1⟩⟩], [⟨⟨9, 9⟩⟩], [⟨⟨2, 2⟩⟩, ⟨⟨3, 3⟩⟩]] [] = .ok r
      ∧ r.homographies.length = 3
      ∧ r.homographies.get? 1 = some Mat.eye3
      ∧ r.homographies.get? 2 = some ⟨3, 3, [2, 0, 0, 0, 1, 0, 0, 0, 1]⟩ := by
  have key := ransacFilterBatch_homographies_aligned (flagAll : Estimator ℚ)
    [⟨0, 0, 0, 1⟩, ⟨1, 1, 2, 1⟩, ⟨0, 0, 2, 1⟩] [⟨⟨5, 5⟩⟩, ⟨⟨0, 0⟩⟩]
    [[⟨⟨1, 1⟩⟩], [⟨⟨9, 9⟩⟩], [⟨⟨2, 2⟩⟩, ⟨⟨3, 3⟩⟩]]
  obtain ⟨r, hr⟩ := key.1
    (by simp [validMatch])
    (by
      intro j hj
      simp only [flagAll, queryPts, List.length_map, partitionOf]
      exact List.length_filter_le _ _)
  refine ⟨r, hr, (key.2 r hr).1, ?_, ?_⟩
  · rw [(key.2 r hr).2 1 (by simp)]
    simp [partitionOf, List.filter_cons]
  · rw [(key.2 r hr).2 2 (by simp)]
    simp [partitionOf, List.filter_cons, flagAll, queryPts]

/-- C9 fails on the code. Two correspondences of different reference images, interleaved:
`m0` (reference image 1, flagged an outlier by the estimator run on partition 1) and `m1`
(reference image 0, flagged an inlier by the estimator run on partition 0). The batch
`ransacFilter` indexes the whole list with the mask position, so it returns `m0`, where
the specified inlier set is `m1`. -/
theorem ransacFilterBatch_keeps_wrong_match :
    ransacFilterBatch (flagZeroX : Estimator ℚ)
        [⟨0, 0, 1, 1⟩, ⟨1, 0, 0, 1⟩] [⟨⟨5, 5⟩⟩, ⟨⟨0, 0⟩⟩] [[⟨⟨1, 1⟩⟩], [⟨⟨2, 2⟩⟩]] []
      = .ok ⟨[⟨0, 0, 1, 1⟩], [Mat.eye3, Mat.eye3],
          [([⟨0, 0⟩], [⟨1, 1⟩]), ([⟨5, 5⟩], [⟨2, 2⟩])]⟩
    ∧ inliersByPartition (flagZeroX : Estimator ℚ)
        [⟨0, 0, 1, 1⟩, ⟨1, 0, 0, 1⟩] [⟨⟨5, 5⟩⟩, ⟨⟨0, 0⟩⟩] [[⟨⟨1, 1⟩⟩], [⟨⟨2, 2⟩⟩]]
      = [⟨1, 0, 0, 1⟩] := by
  constructor
  · simp [ransacFilterBatch, batchLoop, gatherCoordsFor, vecAt, inlierLoop, flagZeroX,
      List.range_succ]
  · simp [inliersByPartition, flagZeroX, partitionOf, queryPts, trainPts, List.range_succ,
      List.filter_cons]

theorem getD_set_eq {β : Type} (l : List β) (i k : Nat) (a d : β) :
    (l.set i a).getD k d = if i = k ∧ i < l.length then a else l.getD k d := by
  simp only [List.getD_eq_getElem?_getD, List.getElem?_set]
  by_cases h : i = k
  · subst h
    by_cases h2 : i < l.length
    · simp [h2]
    · simp [h2, List.getElem?_eq_none (not_lt.mp h2)]
  · simp [h]

theorem rootSIFTRow_spec {α : Type} [LinearOrderedField α] (g : α → α) (offset : Nat)
    (data : List α) (n : Nat) :
    let d' := (List.range n).foldl
      (fun d col => d.set (offset + col) (g (d.getD (offset + col) 0))) data
    d'.length = data.length ∧
    ∀ k, d'.getD k 0
      = if offset ≤ k ∧ k < offset + n ∧ k < data.length then g (data.getD k 0)
        else data.getD k 0 := by
  induction n with
  | zero =>
    refine ⟨rfl, fun k => ?_⟩
    simp only [List.range_zero, List.foldl_nil]
    rw [if_neg (by omega)]
  | succ n ih =>
    obtain ⟨hlen, hget⟩ := ih
    simp only [List.range_succ, List.foldl_append, List.foldl_cons, List.foldl_nil]
    refine ⟨by rw [List.length_set]; exact hlen, ?_⟩
    intro k
    rw [getD_set_eq, hlen, hget (offset + n), hget k]
    have h0 : ¬ (offset ≤ offset + n ∧ offset + n < offset + n ∧ offset + n < data.length) := by
      omega
    rw [if_neg h0]
    by_cases hk : offset + n = k
    · subst hk
      by_cases hl : offset + n < data.length
      · rw [if_pos ⟨rfl, hl⟩, if_pos ⟨by omega, by omega, hl⟩]
      · rw [if_neg (by omega), if_neg (by omega), if_neg (by omega)]
    · rw [if_neg (by omega)]
      by_cases hc : offset ≤ k ∧ k < offset + n ∧ k < data.length
      · rw [if_pos hc, if_pos ⟨hc.1, by omega, hc.2.2⟩]
      · rw [if_neg hc, if_neg (by omega)]

theorem rootSIFT_loop_spec {α : Type} [LinearOrderedField α] (sqrt : α → α) (cols : Nat)
    (sums_vec : Mat α) (data : List α) (n : Nat) :
    let d' := (List.range n).foldl (rootSIFTRow sqrt cols sums_vec) data
    d'.length = data.length ∧
    ∀ k, d'.getD k 0
      = if k < n * cols ∧ k < data.length then sqrt (data.getD k 0 / sums_vec.at (k / cols))
        else data.getD k 0 := by
  induction n with
  | zero =>
    refine ⟨rfl, fun k => ?_⟩
    simp only [List.range_zero, List.foldl_nil]
    rw [if_neg (by omega)]
  | succ n ih =>
    obtain ⟨hlen, hget⟩ := ih
    simp only [List.range_succ, List.foldl_append, List.foldl_cons, List.foldl_nil]
    have row := rootSIFTRow_spec (fun x => sqrt (x / sums_vec.at n)) (n * cols)
      ((List.range n).foldl (rootSIFTRow sqrt cols sums_vec) data) cols
    obtain ⟨rlen, rget⟩ := row
    refine ⟨by simp only [rootSIFTRow]; rw [rlen, hlen], ?_⟩
    intro k
    simp only [rootSIFTRow]
    rw [rget k, hlen, hget k]
    have hsucc : (n + 1) * cols = n * cols + cols := by ring
    by_cases hc : n * cols ≤ k ∧ k < n * cols + cols ∧ k < data.length
    · have hdiv : k / cols = n := by
        have hpos : 0 < cols := by
          by_contra h0
          have : cols = 0 := by omega
          subst this
          omega
        apply Nat.div_eq_of_lt_le
        · exact hc.1
        · rw [hsucc]; exact hc.2.1
      rw [if_pos hc, if_neg (by omega), if_pos ⟨by omega, hc.2.2⟩, hdiv]
    · rw [if_neg hc]
      by_cases hk : k < n * cols ∧ k < data.length
      · rw [if_pos hk, if_pos ⟨by omega, hk.2⟩]
      · rw [if_neg hk, if_neg (by omega)]


theorem getD_map_abs {α : Type} [LinearOrderedField α] (l : List α) (k : Nat) :
    (l.map (fun x => |x|)).getD k 0 = |l.getD k 0| := by
  simp only [List.getD_eq_getElem?_getD, List.getElem?_map]
  cases l[k]? <;> simp

theorem getD_map_range {β : Type} (f : Nat → β) (n r : Nat) (d : β) (h : r < n) :
    ((List.range n).map f).getD r d = f r := by
  simp [List.getD_eq_getElem?_getD, List.getElem?_map, List.getElem?_range h]

theorem sum_map_div {α : Type} [LinearOrderedField α] (l : List Nat) (f : Nat → α) (s : α) :
    (l.map (fun c => f c / s)).sum = (l.map f).sum / s := by
  induction l with
  | nil => simp
  | cons a l ih => simp [ih, add_div]

theorem rootSIFT_at {α : Type} [LinearOrderedField α] (sqrt : α → α) (m : Mat α)
    (hwf : m.data.length = m.rows * m.cols) (r c : Nat) (hr : r < m.rows) (hc : c < m.cols) :
    (rootSIFT sqrt m).at (r * m.cols + c)
      = sqrt (|m.at (r * m.cols + c)|
          / ((List.range m.cols).map (fun j => |m.at (r * m.cols + j)|)).sum) := by
  have key := (rootSIFT_loop_spec sqrt m.cols (reduceRowSum (absMat m)) (absMat m).data
    m.rows).2 (r * m.cols + c)
  have hlt : r * m.cols + c < m.rows * m.cols := by
    calc r * m.cols + c < r * m.cols + m.cols := by omega
      _ = (r + 1) * m.cols := by ring
      _ ≤ m.rows * m.cols := Nat.mul_le_mul_right _ hr
  have hlen : (absMat m).data.length = m.data.length := by simp [absMat]
  have hdiv : (r * m.cols + c) / m.cols = r := by
    apply Nat.div_eq_of_lt_le
    · omega
    · calc r * m.cols + c < r * m.cols + m.cols := by omega
        _ = (r + 1) * m.cols := by ring
  rw [if_pos ⟨hlt, by rw [hlen, hwf]; exact hlt⟩, hdiv] at key
  have hsum : (reduceRowSum (absMat m)).at r
      = ((List.range m.cols).map (fun j => |m.at (r * m.cols + j)|)).sum := by
    simp only [reduceRowSum, Mat.at, absMat]
    rw [getD_map_range _ _ _ _ hr]
    congr 1
    apply List.map_congr_left
    intro j _
    exact getD_map_abs _ _
  have habs : (absMat m).data.getD (r * m.cols + c) 0 = |m.at (r * m.cols + c)| := by
    simp only [absMat, Mat.at]
    exact getD_map_abs _ _
  rw [hsum, habs] at key
  exact key


/-- C10. Over the reals, for every descriptor matrix (rows times cols elements, row-major;
in particular every non-empty one), `rootSIFT` keeps the dimensions, and for every row `r` whose L1 norm `S_r` is non-zero
each component becomes `sqrt(|x[r][c]| / S_r)` with that row's own sum, every output of
the row is non-negative, and the squares of the output row sum to 1. -/
theorem rootSIFT_normalizes (m : Mat ℝ) (hwf : m.data.length = m.rows * m.cols) :
    (rootSIFT Real.sqrt m).rows = m.rows ∧ (rootSIFT Real.sqrt m).cols = m.cols ∧
    (rootSIFT Real.sqrt m).data.length = m.data.length ∧
    ∀ r < m.rows,
      ((List.range m.cols).map (fun j => |m.at (r * m.cols + j)|)).sum ≠ 0 →
      (∀ c < m.cols,
        (rootSIFT Real.sqrt m).at (r * m.cols + c)
          = Real.sqrt (|m.at (r * m.cols + c)|
              / ((List.range m.cols).map (fun j => |m.at (r * m.cols + j)|)).sum)
        ∧ 0 ≤ (rootSIFT Real.sqrt m).at (r * m.cols + c))
      ∧ ((List.range m.cols).map
          (fun c => (rootSIFT Real.sqrt m).at (r * m.cols + c) ^ 2)).sum = 1 := by
  refine ⟨rfl, rfl, ?_, ?_⟩
  · have h := (rootSIFT_loop_spec Real.sqrt m.cols (reduceRowSum (absMat m)) (absMat m).data
      m.rows).1
    have hlen : (absMat m).data.length = m.data.length := by simp [absMat]
    rw [← hlen]
    exact h
  · intro r hr hS
    have hS0 : 0 ≤ ((List.range m.cols).map (fun j => |m.at (r * m.cols + j)|)).sum := by
      apply List.sum_nonneg
      intro x hx
      obtain ⟨j, _, rfl⟩ := List.mem_map.mp hx
      exact abs_nonneg _
    constructor
    · intro c hc
      rw [rootSIFT_at Real.sqrt m hwf r c hr hc]
      exact ⟨rfl, Real.sqrt_nonneg _⟩
    · have hterm : ∀ c ∈ List.range m.cols,
          (rootSIFT Real.sqrt m).at (r * m.cols + c) ^ 2
            = |m.at (r * m.cols + c)|
              / ((List.range m.cols).map (fun j => |m.at (r * m.cols + j)|)).sum := by
        intro c hc
        rw [rootSIFT_at Real.sqrt m hwf r c hr (List.mem_range.mp hc)]
        exact Real.sq_sqrt (div_nonneg (abs_nonneg _) hS0)
      rw [List.map_congr_left hterm, sum_map_div]
      exact div_self hS

/-- Witness for C10: the 2x2 matrix with rows (9, -16) and (0, 0); the first row has L1
norm 25 and is rewritten to (3/5, 4/5). -/
theorem rootSIFT_normalizes_witness :
    (rootSIFT Real.sqrt ⟨2, 2, [9, -16, 0, 0]⟩).at 0 = 3 / 5
    ∧ (rootSIFT Real.sqrt ⟨2, 2, [9, -16, 0, 0]⟩).at 1 = 4 / 5
    ∧ (rootSIFT Real.sqrt ⟨2, 2, [9, -16, 0, 0]⟩).data.length = 4 := by
  have key := rootSIFT_normalizes ⟨2, 2, [9, -16, 0, 0]⟩ rfl
  have hS : ((List.range 2).map (fun j => |(⟨2, 2, [9, -16, 0, 0]⟩ : Mat ℝ).at (0 * 2 + j)|)).sum
      = 25 := by
    simp [List.range_succ, Mat.at]
    norm_num
  have h0 := key.2.2.2 0 (by decide) (by rw [hS]; norm_num)
  have e0 := (h0.1 0 (by decide)).1
  have e1 := (h0.1 1 (by decide)).1
  rw [hS] at e0 e1
  refine ⟨?_, ?_, key.2.2.1⟩
  · simp only [Mat.at, Nat.zero_mul, Nat.zero_add] at e0 ⊢
    rw [e0]
    rw [show |List.getD [(9:ℝ), -16, 0, 0] 0 0| / 25 = (3 / 5) ^ 2 by simp; norm_num]
    exact Real.sqrt_sq (by norm_num)
  · simp only [Mat.at, Nat.zero_mul, Nat.zero_add] at e1 ⊢
    rw [e1]
    rw [show |List.getD [(9:ℝ), -16, 0, 0] 1 0| / 25 = (4 / 5) ^ 2 by simp; norm_num]
    exact Real.sqrt_sq (by norm_num)

theorem getlines_seg_cons (d : Char) (seg rest : List Char) (h : d ∉ seg) :
    getlines d (seg ++ d :: rest) = seg :: getlines d rest := by
  induction seg with
  | nil => simp [getlines]
  | cons c seg ih =>
    have hc : c ≠ d := fun e => h (by simp [e])
    have hseg : d ∉ seg := fun e => h (List.mem_cons_of_mem _ e)
    simp [getlines, hc, ih hseg]

theorem getlines_single (d : Char) (seg : List Char) (h : d ∉ seg) (hne : seg ≠ []) :
    getlines d seg = [seg] := by
  induction seg with
  | nil => exact absurd rfl hne
  | cons c seg ih =>
    have hc : c ≠ d := fun e => h (by simp [e])
    have hseg : d ∉ seg := fun e => h (List.mem_cons_of_mem _ e)
    by_cases hs : seg = []
    · subst hs
      simp [getlines, hc]
    · simp [getlines, hc, ih hseg hs]

theorem getlines_before_delim (d : Char) (x y : List Char) :
    ∃ segs, segs ≠ [] ∧ getlines d (x ++ d :: y) = segs ++ getlines d y := by
  induction x with
  | nil => exact ⟨[[]], by simp, by simp [getlines]⟩
  | cons c x ih =>
    obtain ⟨segs, hne, hs⟩ := ih
    by_cases hc : c = d
    · exact ⟨[] :: segs, by simp, by simp [getlines, hc, hs]⟩
    · match segs, hne with
      | a :: as, _ =>
        exact ⟨(c :: a) :: as, by simp, by simp [getlines, hc, hs]⟩

theorem foldl_last_indep (l : List (List Char)) (a b : List Char) (h : l ≠ []) :
    l.foldl (fun _ line => line) a = l.foldl (fun _ line => line) b := by
  match l, h with
  | x :: xs, _ => simp

theorem lastLine_after_newline (x y : List Char) (h : getlines '\n' y ≠ []) :
    lastLine (x ++ '\n' :: y) = lastLine y := by
  obtain ⟨segs, _, hs⟩ := getlines_before_delim '\n' x y
  unfold lastLine
  rw [hs, List.foldl_append]
  exact foldl_last_indep _ _ _ h

theorem lastLine_line (v : List Char) (h : '\n' ∉ v) : lastLine (v ++ ['\n']) = v := by
  unfold lastLine
  rw [getlines_seg_cons '\n' v [] h]
  simp [getlines]

theorem lastLine_final (x v : List Char) (h : '\n' ∉ v) :
    lastLine (x ++ '\n' :: (v ++ ['\n'])) = v := by
  rw [lastLine_after_newline, lastLine_line v h]
  rw [getlines_seg_cons '\n' v [] h]
  simp

theorem split_last_newline (z : List Char) :
    '\n' ∉ z ∨ ∃ x v, z = x ++ '\n' :: v ∧ '\n' ∉ v ∧ ∀ c ∈ v, c ∈ z := by
  induction z with
  | nil => left; simp
  | cons c z ih =>
    rcases ih with h | ⟨x, v, hz, hv, hsub⟩
    · by_cases hc : c = '\n'
      · right
        exact ⟨[], z, by simp [hc], h, fun a ha => List.mem_cons_of_mem _ ha⟩
      · left
        intro hm
        rcases List.mem_cons.mp hm with e | e
        · exact hc e.symm
        · exact h e
    · right
      exact ⟨c :: x, v, by simp [hz], hv, fun a ha => List.mem_cons_of_mem _ (hsub a ha)⟩

theorem getlines_segments (d : Char) (s : List Char) :
    ∀ seg ∈ getlines d s, d ∉ seg ∧ ∀ c ∈ seg, c ∈ s := by
  induction s with
  | nil => simp [getlines]
  | cons c s ih =>
    intro seg hseg
    unfold getlines at hseg
    by_cases hc : c = d
    · rw [if_pos hc] at hseg
      rcases List.mem_cons.mp hseg with e | e
      · subst e; simp
      · exact ⟨(ih seg e).1, fun a ha => List.mem_cons_of_mem _ ((ih seg e).2 a ha)⟩
    · rw [if_neg hc] at hseg
      cases hg : getlines d s with
      | nil =>
        rw [hg] at hseg
        simp only [List.mem_singleton] at hseg
        subst hseg
        simp [Ne.symm hc]
      | cons a as =>
        rw [hg] at hseg ih
        rcases List.mem_cons.mp hseg with e | e
        · subst e
          have ha := ih a (List.mem_cons_self _ _)
          constructor
          · intro hm
            rcases List.mem_cons.mp hm with e2 | e2
            · exact hc e2.symm
            · exact ha.1 e2
          · intro b hb
            rcases List.mem_cons.mp hb with e2 | e2
            · subst e2; exact List.mem_cons_self _ _
            · exact List.mem_cons_of_mem _ (ha.2 b e2)
        · have ha := ih seg (List.mem_cons_of_mem _ e)
          exact ⟨ha.1, fun b hb => List.mem_cons_of_mem _ (ha.2 b hb)⟩

theorem cstr_no_nul (s : List Char) : Char.ofNat 0 ∉ cstr s := by
  intro h
  have := List.mem_takeWhile_imp h
  simp at this

theorem cstr_of_no_nul (s : List Char) (h : Char.ofNat 0 ∉ s) : cstr s = s := by
  unfold cstr
  rw [List.takeWhile_eq_self_iff]
  intro c hc
  simp only [ne_eq, decide_not, Bool.not_eq_true', decide_eq_false_iff_not]
  intro e
  exact h (e ▸ hc)

theorem splitString_segments (str : List Char) (d : Char) :
    ∀ seg ∈ splitString str d, d ∉ seg ∧ Char.ofNat 0 ∉ seg := by
  intro seg hseg
  have h := getlines_segments d (cstr str) seg hseg
  exact ⟨h.1, fun hm => cstr_no_nul str (h.2 _ hm)⟩


theorem digitChar_facts (d : Nat) (h : d < 10) :
    isdigit (digitChar d) = true ∧ (digitChar d).toNat - '0'.toNat = d ∧
    isspace (digitChar d) = false ∧ digitChar d ≠ '-' ∧ digitChar d ≠ '+' ∧
    digitChar d ≠ ',' ∧ digitChar d ≠ '\n' ∧ digitChar d ≠ Char.ofNat 0 := by
  interval_cases d <;> decide

theorem showNatAux_digits (fuel n : Nat) :
    ∀ c ∈ showNatAux fuel n, ∃ d, d < 10 ∧ c = digitChar d := by
  induction fuel generalizing n with
  | zero => simp [showNatAux]
  | succ fuel ih =>
    intro c hc
    unfold showNatAux at hc
    by_cases hn : n < 10
    · rw [if_pos hn] at hc
      exact ⟨n, hn, by simpa using hc⟩
    · rw [if_neg hn] at hc
      rcases List.mem_append.mp hc with e | e
      · exact ih _ c e
      · exact ⟨n % 10, Nat.mod_lt _ (by decide), by simpa using e⟩

theorem showNat_ne_nil (n : Nat) : showNat n ≠ [] := by
  unfold showNat showNatAux
  by_cases hn : n < 10
  · simp [hn]
  · simp [hn]

theorem digitsValue_snoc (xs : List Char) (c : Char) :
    digitsValue (xs ++ [c]) = 10 * digitsValue xs + (c.toNat - '0'.toNat) := by
  simp [digitsValue, List.foldl_append]

theorem digitsValue_showNatAux (fuel n : Nat) (h : n < fuel) :
    digitsValue (showNatAux fuel n) = n := by
  induction fuel generalizing n with
  | zero => omega
  | succ fuel ih =>
    unfold showNatAux
    by_cases hn : n < 10
    · rw [if_pos hn]
      have := (digitChar_facts n hn).2.1
      simp only [digitsValue, List.foldl_cons, List.foldl_nil, Nat.mul_zero, Nat.zero_add]
      exact this
    · rw [if_neg hn, digitsValue_snoc, ih (n / 10) (by omega),
        (digitChar_facts (n % 10) (Nat.mod_lt _ (by decide))).2.1]
      omega

theorem takeWhile_isdigit_showNat (n : Nat) : (showNat n).takeWhile isdigit = showNat n := by
  rw [List.takeWhile_eq_self_iff]
  intro c hc
  obtain ⟨d, hd, rfl⟩ := showNatAux_digits _ _ c hc
  exact (digitChar_facts d hd).1

theorem showNat_head (n : Nat) : ∃ d t, d < 10 ∧ showNat n = digitChar d :: t := by
  cases hs : showNat n with
  | nil => exact absurd hs (showNat_ne_nil n)
  | cons c t =>
    obtain ⟨d, hd, rfl⟩ := showNatAux_digits (n + 1) n c (by
      have : c ∈ showNat n := by rw [hs]; exact List.mem_cons_self _ _
      exact this)
    exact ⟨d, t, hd, rfl⟩

theorem stol_showLong (n : Int) :
    stol (showLong n)
      = if n < -(2 : Int) ^ 63 ∨ (2 : Int) ^ 63 ≤ n then .error Fault.out_of_range
        else .ok n := by
  unfold showLong
  by_cases hneg : n < 0
  · rw [if_pos hneg]
    have hds := takeWhile_isdigit_showNat n.natAbs
    have hne := showNat_ne_nil n.natAbs
    have hval : digitsValue (showNat n.natAbs) = n.natAbs :=
      digitsValue_showNatAux _ _ (Nat.lt_succ_self _)
    have hn : -((n.natAbs : Nat) : Int) = n := by omega
    have hsp : List.dropWhile isspace ('-' :: showNat n.natAbs) = '-' :: showNat n.natAbs := by
      rw [List.dropWhile_cons_of_neg (by decide)]
    simp only [stol, hsp, hds, hne, if_false, hval, hn, if_true]
  · rw [if_neg hneg]
    obtain ⟨d, t, hd, hs⟩ := showNat_head n.toNat
    have hf := digitChar_facts d hd
    have hds := takeWhile_isdigit_showNat n.toNat
    have hne := showNat_ne_nil n.toNat
    have hval : digitsValue (showNat n.toNat) = n.toNat :=
      digitsValue_showNatAux _ _ (Nat.lt_succ_self _)
    have hn : ((n.toNat : Nat) : Int) = n := by omega
    have hsp : List.dropWhile isspace (showNat n.toNat) = showNat n.toNat := by
      rw [hs, List.dropWhile_cons_of_neg (by simp [hf.2.2.1])]
    have hsign : (match showNat n.toNat with
        | '-' :: t => (true, t)
        | '+' :: t => (false, t)
        | _ => (false, showNat n.toNat)) = (false, showNat n.toNat) := by
      rw [hs]
      split
      · next t2 heq =>
        exact absurd (List.cons.inj heq).1 hf.2.2.2.1
      · next t2 heq =>
        exact absurd (List.cons.inj heq).1 hf.2.2.2.2.1
      · rfl
    simp only [stol, hsp, hsign, hds, hne, if_false, hval, hn]
    simp

theorem showLong_chars (n : Int) :
    showLong n ≠ [] ∧ ',' ∉ showLong n ∧ '\n' ∉ showLong n ∧ Char.ofNat 0 ∉ showLong n := by
  have key : ∀ m : Nat, ',' ∉ showNat m ∧ '\n' ∉ showNat m ∧ Char.ofNat 0 ∉ showNat m := by
    intro m
    refine ⟨?_, ?_, ?_⟩ <;>
    · intro hm
      obtain ⟨d, hd, e⟩ := showNatAux_digits _ _ _ hm
      have hf := digitChar_facts d hd
      first
        | exact hf.2.2.2.2.2.1 e.symm
        | exact hf.2.2.2.2.2.2.1 e.symm
        | exact hf.2.2.2.2.2.2.2 e.symm
  unfold showLong
  by_cases hneg : n < 0
  · rw [if_pos hneg]
    have k := key n.natAbs
    refine ⟨by simp, ?_, ?_, ?_⟩
    · intro hm
      rcases List.mem_cons.mp hm with e | e
      · exact absurd e (by decide)
      · exact k.1 e
    · intro hm
      rcases List.mem_cons.mp hm with e | e
      · exact absurd e (by decide)
      · exact k.2.1 e
    · intro hm
      rcases List.mem_cons.mp hm with e | e
      · exact absurd e (by decide)
      · exact k.2.2 e
  · rw [if_neg hneg]
    exact ⟨showNat_ne_nil _, key _⟩


theorem firstBin_three (b : List Char) (s e : Int) (hb : ',' ∉ b) (hb0 : Char.ofNat 0 ∉ b) :
    firstBin (b ++ ',' :: (showLong s ++ ',' :: showLong e))
      = .error Fault.out_of_range := by
  obtain ⟨_, hs1, _, hs0⟩ := showLong_chars s
  obtain ⟨hene, he1, _, he0⟩ := showLong_chars e
  have hnul : Char.ofNat 0 ∉ b ++ ',' :: (showLong s ++ ',' :: showLong e) := by
    simp only [List.mem_append, List.mem_cons, not_or]
    exact ⟨hb0, by decide, hs0, by decide, he0⟩
  have hsplit : splitString (b ++ ',' :: (showLong s ++ ',' :: showLong e)) ','
      = [b, showLong s, showLong e] := by
    unfold splitString
    rw [cstr_of_no_nul _ hnul, getlines_seg_cons ',' b _ hb,
      getlines_seg_cons ',' (showLong s) _ hs1, getlines_single ',' _ he1 hene]
  unfold firstBin
  rw [hsplit]
  rfl

theorem firstBin_four (a b : List Char) (s e : Int) (ha : ',' ∉ a) (ha0 : Char.ofNat 0 ∉ a)
    (hb : ',' ∉ b) (hb0 : Char.ofNat 0 ∉ b) (fb : Int)
    (h : firstBin (a ++ ',' :: (b ++ ',' :: (showLong s ++ ',' :: showLong e))) = .ok fb) :
    fb = e + 1 := by
  obtain ⟨_, hs1, _, hs0⟩ := showLong_chars s
  obtain ⟨hene, he1, _, he0⟩ := showLong_chars e
  have hnul : Char.ofNat 0 ∉ a ++ ',' :: (b ++ ',' :: (showLong s ++ ',' :: showLong e)) := by
    simp only [List.mem_append, List.mem_cons, not_or]
    exact ⟨ha0, by decide, hb0, by decide, hs0, by decide, he0⟩
  have hsplit : splitString (a ++ ',' :: (b ++ ',' :: (showLong s ++ ',' :: showLong e))) ','
      = [a, b, showLong s, showLong e] := by
    unfold splitString
    rw [cstr_of_no_nul _ hnul, getlines_seg_cons ',' a _ ha, getlines_seg_cons ',' b _ hb,
      getlines_seg_cons ',' (showLong s) _ hs1, getlines_single ',' _ he1 hene]
  unfold firstBin at h
  rw [hsplit] at h
  have hat : vecAt [a, b, showLong s, showLong e] 3 = .ok (showLong e) := rfl
  rw [if_pos (by simp), hat] at h
  simp only [stol_showLong] at h
  by_cases hr : e < -(2 : Int) ^ 63 ∨ (2 : Int) ^ 63 ≤ e
  · rw [if_pos hr] at h
    cases h
  · rw [if_neg hr] at h
    by_cases ho : e + 1 < (2 : Int) ^ 63
    · simp only [if_pos ho] at h
      cases h
      rfl
    · simp only [if_neg ho] at h
      cases h

theorem not_mem_of_subset {l v : List Char} {x : Char} (hsub : ∀ c ∈ v, c ∈ l) (h : x ∉ l) :
    x ∉ v := fun hm => h (hsub x hm)

theorem firstBin_ledgerLine (pre : List Char) (tag : List Char × List Char) (s e : Int)
    (hpre : pre = [] ∨ ∃ p, pre = p ++ ['\n']) (htag : WellTagged tag) (fb : Int)
    (h : firstBin (lastLine (pre ++ ledgerLine tag s e)) = .ok fb) : fb = e + 1 := by
  obtain ⟨ha, ha0, hb, hb0⟩ := htag
  obtain ⟨_, _, hsn, _⟩ := showLong_chars s
  obtain ⟨_, _, hen, _⟩ := showLong_chars e
  rcases split_last_newline tag.2 with hlng | ⟨x, v, hx, hv, hsub⟩
  · rcases split_last_newline tag.1 with hlat | ⟨x, v, hx, hv, hsub⟩
    · have hbody : '\n' ∉ tag.1 ++ ',' :: (tag.2 ++ ',' :: (showLong s ++ ',' :: showLong e)) := by
        simp only [List.mem_append, List.mem_cons, not_or]
        exact ⟨hlat, by decide, hlng, by decide, hsn, by decide, hen⟩
      have hlast : lastLine (pre ++ ledgerLine tag s e)
          = tag.1 ++ ',' :: (tag.2 ++ ',' :: (showLong s ++ ',' :: showLong e)) := by
        rcases hpre with hp | ⟨p, hp⟩
        · rw [← lastLine_line _ hbody]
          simp [hp, ledgerLine]
        · rw [← lastLine_final p _ hbody]
          simp [hp, ledgerLine]
      rw [hlast] at h
      exact firstBin_four _ _ s e ha ha0 hb hb0 fb h
    · have hbody : '\n' ∉ v ++ ',' :: (tag.2 ++ ',' :: (showLong s ++ ',' :: showLong e)) := by
        simp only [List.mem_append, List.mem_cons, not_or]
        exact ⟨hv, by decide, hlng, by decide, hsn, by decide, hen⟩
      have hlast : lastLine (pre ++ ledgerLine tag s e)
          = v ++ ',' :: (tag.2 ++ ',' :: (showLong s ++ ',' :: showLong e)) := by
        rw [← lastLine_final (pre ++ x) _ hbody]
        simp [ledgerLine, hx]
      rw [hlast] at h
      exact firstBin_four _ _ s e (not_mem_of_subset hsub ha) (not_mem_of_subset hsub ha0)
        hb hb0 fb h
  · have hbody : '\n' ∉ v ++ ',' :: (showLong s ++ ',' :: showLong e) := by
      simp only [List.mem_append, List.mem_cons, not_or]
      exact ⟨hv, by decide, hsn, by decide, hen⟩
    have hlast : lastLine (pre ++ ledgerLine tag s e)
        = v ++ ',' :: (showLong s ++ ',' :: showLong e) := by
      rw [← lastLine_final (pre ++ (tag.1 ++ ',' :: x)) _ hbody]
      simp [ledgerLine, hx]
    rw [hlast, firstBin_three _ s e (not_mem_of_subset hsub hb) (not_mem_of_subset hsub hb0)] at h
    cases h

theorem firstBin_of_inv (ledger : List Char) (next fb : Int) (hinv : LedgerInv ledger next)
    (h : firstBin (lastLine ledger) = .ok fb) : fb = next := by
  rcases hinv with ⟨hl, hn⟩ | ⟨pre, tag, s, hl, hpre, htag⟩
  · subst hl
    have : firstBin (lastLine []) = .ok 0 := rfl
    rw [this] at h
    cases h
    exact hn.symm
  · rw [hl] at h
    have := firstBin_ledgerLine pre tag s (next - 1) hpre htag fb h
    omega


theorem readImages_some {α Image σ : Type} (host : SaverHost α Image σ) (folder : List Char)
    (fl : List (List Char)) (acc images : List Image)
    (h : readImages host folder fl acc = some images) :
    images = acc ++ fl.filterMap (fun f => host.imread (folder ++ f)) ∧
    images.length = acc.length + fl.length := by
  induction fl generalizing acc with
  | nil =>
    simp only [readImages, Option.some.injEq] at h
    simp [h]
  | cons f rest ih =>
    unfold readImages at h
    split at h
    · cases h
    · next img himg =>
      obtain ⟨h1, h2⟩ := ih _ h
      constructor
      · rw [h1]
        simp [List.filterMap_cons, himg]
      · rw [h2]
        simp
        omega

theorem readImages_none {α Image σ : Type} (host : SaverHost α Image σ) (folder : List Char)
    (fl : List (List Char)) (acc : List Image)
    (h : ∃ f ∈ fl, host.imread (folder ++ f) = none) :
    readImages host folder fl acc = none := by
  induction fl generalizing acc with
  | nil =>
    obtain ⟨f, hf, _⟩ := h
    cases hf
  | cons g rest ih =>
    unfold readImages
    cases hg : host.imread (folder ++ g) with
    | none => rfl
    | some img =>
      obtain ⟨f, hf, hnone⟩ := h
      rcases List.mem_cons.mp hf with e | e
      · subst e
        rw [hg] at hnone
        cases hnone
      · exact ih _ ⟨f, e, hnone⟩

theorem readImages_all {α Image σ : Type} (host : SaverHost α Image σ) (folder : List Char)
    (fl : List (List Char)) (acc : List Image)
    (h : ∀ f ∈ fl, host.imread (folder ++ f) ≠ none) :
    ∃ images, readImages host folder fl acc = some images := by
  induction fl generalizing acc with
  | nil => exact ⟨acc, rfl⟩
  | cons g rest ih =>
    unfold readImages
    cases hg : host.imread (folder ++ g) with
    | none => exact absurd hg (h g (List.mem_cons_self _ _))
    | some img => exact ih _ (fun f hf => h f (List.mem_cons_of_mem _ hf))

theorem writeLoop_eq {α : Type} (fl : List (List Char)) (fb : Int) (size : Nat)
    (ds : List (Mat α)) (i : Nat) (lb : Int) (out : List Char)
    (hsize : i + ds.length = size) (hne : ds ≠ []) :
    writeLoop fl fb size ds i lb out
      = match vecAt fl ((size - 1 : Nat) : Int) with
        | .error e => .error e
        | .ok filename =>
          match vecAt (splitString filename ',') 0 with
          | .error e => .error e
          | .ok lat =>
            match vecAt (splitString filename ',') 1 with
            | .error e => .error e
            | .ok lng =>
              .ok (out ++ (lat ++ [','] ++ lng ++ [','] ++ showLong fb ++ [',']
                ++ showLong (lb + ((ds.map (fun d => d.rows)).sum : Nat) - 1) ++ ['\n'])) := by
  induction ds generalizing i lb out with
  | nil => exact absurd rfl hne
  | cons d rest ih =>
    simp only [List.length_cons] at hsize
    unfold writeLoop
    by_cases hrest : rest = []
    · subst hrest
      have hi : i = size - 1 := by simp at hsize; omega
      rw [if_pos hi, ← hi]
      cases vecAt fl (i : Int) with
      | error e => rfl
      | ok filename =>
        cases vecAt (splitString filename ',') 0 with
        | error e => rfl
        | ok lat =>
          cases vecAt (splitString filename ',') 1 with
          | error e => rfl
          | ok lng => simp [writeLoop]
    · have hlen : 0 < rest.length := List.length_pos.mpr hrest
      have hi : i ≠ size - 1 := by omega
      rw [if_neg hi, ih (i + 1) _ _ (by omega) hrest]
      have hsum : lb + (d.rows : Int) + (((rest.map (fun d => d.rows)).sum : Nat) : Int)
          = lb + ((((d :: rest).map (fun d => d.rows)).sum : Nat) : Int) := by
        simp only [List.map_cons, List.sum_cons, Nat.cast_add]
        ring
      rw [hsum]


theorem getLast_getD (fl : List (List Char)) :
    fl.getLast?.getD [] = fl.getD (fl.length - 1) [] := by
  rw [List.getLast?_eq_getElem?, List.getD_eq_getElem?_getD]

theorem vecAt_mem {β : Type} (v : List β) (i : Int) (b : β) (h : vecAt v i = .ok b) : b ∈ v := by
  unfold vecAt at h
  split at h
  · cases h
  · split at h
    · next c hc =>
      cases h
      exact List.get?_mem hc
    · cases h

theorem saveFeatures_saved {α : Type} [LinearOrderedField α] {Image σ : Type}
    (host : SaverHost α Image σ) (b : Batch) (disk disk' : Disk σ)
    (h : saveFeatures host b.img_folder b.img_filenames b.out_folder disk = .saved disk') :
    ∃ first_bin, firstBin (lastLine disk.ledger) = .ok first_bin ∧
      disk'.ledger = disk.ledger
        ++ ledgerLine (batchTag b) first_bin (first_bin + (batchCount host b : Nat) - 1) ∧
      WellTagged (batchTag b) := by
  unfold saveFeatures at h
  simp only at h
  split at h
  · cases h
  · next images himg =>
    obtain ⟨himages, hlen⟩ := readImages_some host _ _ _ _ himg
    simp only [List.nil_append, List.length_nil, Nat.zero_add] at himages hlen
    split at h
    · cases h
    · next first hfirst =>
      split at h
      · cases h
      · next seg0 hseg0 =>
        split at h
        · cases h
        · next seg1 hseg1 =>
          split at h
          · cases h
          · next first_bin hfb =>
            have hne : (List.map (rootSIFT host.sqrt) (List.map host.describe images)) ≠ [] := by
              have h0 : 0 < (splitString b.img_filenames ':').length := by
                have := vecAt_mem _ _ _ hfirst
                exact List.length_pos_of_mem this
              intro hnil
              have := congrArg List.length hnil
              simp at this
              rw [this] at hlen
              simp at hlen
              omega
            rw [writeLoop_eq _ _ _ _ 0 _ _ (by simp) hne] at h
            cases hfn : vecAt (splitString b.img_filenames ':')
                (((List.map (rootSIFT host.sqrt) (List.map host.describe images)).length - 1
                  : Nat) : Int) with
            | error e =>
              simp only [hfn] at h
              cases h
            | ok filename =>
              simp only [hfn] at h
              cases hlat : vecAt (splitString filename ',') 0 with
              | error e =>
                simp only [hlat] at h
                cases h
              | ok lat =>
                simp only [hlat] at h
                cases hlng : vecAt (splitString filename ',') 1 with
                | error e =>
                  simp only [hlng] at h
                  cases h
                | ok lng =>
                  simp only [hlng] at h
                  cases h
                  have e1 := vecAt_ok _ _ _ [] hfn
                  have e2 := vecAt_ok _ _ _ [] hlat
                  have e3 := vecAt_ok _ _ _ [] hlng
                  simp only [Int.toNat_ofNat, List.length_map] at e1
                  rw [hlen, ← getLast_getD] at e1
                  have htag : batchTag b = (lat, lng) := by
                    simp only [batchTag]
                    rw [e1]
                    simp only [Int.toNat_zero, Int.toNat_one] at e2 e3
                    rw [Prod.mk.injEq]
                    exact ⟨e2, e3⟩
                  refine ⟨first_bin, hfb, ?_, ?_⟩
                  · have hcount : (List.map (fun d => d.rows)
                        (List.map (rootSIFT host.sqrt) (List.map host.describe images))).sum
                        = batchCount host b := by
                      simp only [batchCount, ← himages, List.map_map]
                      rfl
                    simp only [List.nil_append, hcount, htag, ledgerLine]
                  · rw [htag]
                    have m1 := splitString_segments filename ',' lat (vecAt_mem _ _ _ hlat)
                    have m2 := splitString_segments filename ',' lng (vecAt_mem _ _ _ hlng)
                    exact ⟨m1.1, m1.2, m2.1, m2.2⟩


theorem ingestAll_ledger {α : Type} [LinearOrderedField α] {Image σ : Type}
    (host : SaverHost α Image σ) (bs : List Batch) (disk disk' : Disk σ) (next : Int)
    (hinv : LedgerInv disk.ledger next) (h : ingestAll host disk bs = some disk') :
    disk'.ledger = disk.ledger ++ ledgerFrom host next bs := by
  induction bs generalizing disk next with
  | nil =>
    simp only [ingestAll, Option.some.injEq] at h
    simp [ledgerFrom, h]
  | cons b bs ih =>
    unfold ingestAll at h
    cases hs : saveFeatures host b.img_folder b.img_filenames b.out_folder disk with
    | unreadable d => simp only [hs] at h; cases h
    | raised f d => simp only [hs] at h; cases h
    | saved d1 =>
      simp only [hs] at h
      obtain ⟨fb, hfb, hl, htag⟩ := saveFeatures_saved host b disk d1 hs
      have hnext : fb = next := firstBin_of_inv _ _ _ hinv hfb
      subst hnext
      have hpre : disk.ledger = [] ∨ ∃ p, disk.ledger = p ++ ['\n'] := by
        rcases hinv with ⟨e, _⟩ | ⟨pre, tag, s, e, _, _⟩
        · exact Or.inl e
        · right
          refine ⟨pre ++ (tag.1 ++ [','] ++ tag.2 ++ [','] ++ showLong s ++ [',']
            ++ showLong (fb - 1)), ?_⟩
          rw [e]
          simp [ledgerLine]
      have hinv1 : LedgerInv d1.ledger (fb + (batchCount host b : Nat)) := by
        right
        refine ⟨disk.ledger, batchTag b, fb, ?_, hpre, htag⟩
        rw [hl]
      rw [ih d1 _ hinv1 h, hl]
      simp [ledgerFrom]

theorem ledgerFrom_eq {α : Type} [LinearOrderedField α] {Image σ : Type}
    (host : SaverHost α Image σ) (bs : List Batch) (s : Int) :
    ledgerFrom host s bs
      = ((List.range bs.length).map (fun k =>
          ledgerLine (batchTag (bs.getD k ⟨[], [], []⟩)) (s + startBinOf host bs k)
            (s + endBinOf host bs k))).flatten := by
  induction bs generalizing s with
  | nil => simp [ledgerFrom]
  | cons b bs ih =>
    rw [List.length_cons, List.range_succ_eq_map, List.map_cons, List.flatten_cons, List.map_map]
    unfold ledgerFrom
    rw [ih]
    congr 1
    · simp [startBinOf, endBinOf]
      congr 1
      ring
    · congr 1
      apply List.map_congr_left
      intro k _
      simp only [Function.comp, List.getD_cons_succ, startBinOf, endBinOf, List.take_succ_cons,
        List.map_cons, List.sum_cons, Nat.cast_add]
      congr 1 <;> ring

/-- C5. Starting from an empty ledger, after any sequence of ingestions that all save, the
ledger consists of one line per ingestion, the `k`-th (from 0) holding the tag of batch `k`,
`startBin` = the sum of the descriptor counts of the batches before it and `endBin` =
`startBin` + its own count - 1; so each `startBin` is the previous `endBin` + 1; batches
of 10, 5 and 20 descriptors give the bins [0,9], [10,14], [15,34]. -/
theorem saveFeatures_bin_allocation :
    (∀ (α : Type) [LinearOrderedField α] (Image σ : Type) (host : SaverHost α Image σ)
        (index : σ) (batches : List Batch) (disk' : Disk σ),
      ingestAll host ⟨index, []⟩ batches = some disk' →
      disk'.ledger
        = ((List.range batches.length).map (fun k =>
            ledgerLine (batchTag (batches.getD k ⟨[], [], []⟩)) (startBinOf host batches k)
              (endBinOf host batches k))).flatten
      ∧ ∀ k, k + 1 < batches.length →
          startBinOf host batches (k + 1) = endBinOf host batches k + 1)
    ∧ threeBatches.map (batchCount lengthHost) = [10, 5, 20]
    ∧ (ingestAll lengthHost ⟨(), []⟩ threeBatches).map (fun d => d.ledger)
        = some "1,2,0,9\n3,4,10,14\n5,6,15,34\n".toList := by
  refine ⟨?_, by decide, by decide⟩
  intro α _ Image σ host index batches disk' h
  constructor
  · have key := ingestAll_ledger host batches ⟨index, []⟩ disk' 0 (Or.inl ⟨rfl, rfl⟩) h
    rw [key, ledgerFrom_eq]
    simp
  · intro k hk
    have hget : batches.getD k ⟨[], [], []⟩ = batches[k] := by
      rw [List.getD_eq_getElem?_getD, List.getElem?_eq_getElem (by omega)]
      rfl
    have htake : batches.take (k + 1) = batches.take k ++ [batches[k]] := by
      rw [List.take_succ, List.getElem?_eq_getElem (by omega)]
      rfl
    simp only [startBinOf, endBinOf, hget, htake, List.map_append, List.sum_append,
      List.map_cons, List.map_nil, List.sum_cons, List.sum_nil, Nat.cast_add]
    ring

/-- Witness for C5: two ingestions, of 7 and 3 descriptors, into an empty ledger. -/
theorem saveFeatures_bin_allocation_witness :
    ingestAll lengthHost ⟨(), []⟩
        [⟨[], "9,8,abc".toList, []⟩, ⟨[], "7,6".toList, []⟩]
      = some ⟨(), "9,8,0,6\n7,6,7,9\n".toList⟩
    ∧ "9,8,0,6\n7,6,7,9\n".toList
      = ((List.range 2).map (fun k =>
          ledgerLine (batchTag (([⟨[], "9,8,abc".toList, []⟩, ⟨[], "7,6".toList, []⟩]
              : List Batch).getD k ⟨[], [], []⟩))
            (startBinOf lengthHost [⟨[], "9,8,abc".toList, []⟩, ⟨[], "7,6".toList, []⟩] k)
            (endBinOf lengthHost [⟨[], "9,8,abc".toList, []⟩, ⟨[], "7,6".toList, []⟩] k))).flatten :=
  ⟨by decide, (saveFeatures_bin_allocation.1 ℚ Nat Unit lengthHost ()
    [⟨[], "9,8,abc".toList, []⟩, ⟨[], "7,6".toList, []⟩] ⟨(), "9,8,0,6\n7,6,7,9\n".toList⟩
    (by decide)).1⟩


theorem saveFeatures_saves {α : Type} [LinearOrderedField α] {Image σ : Type}
    (host : SaverHost α Image σ) (b : Batch) (disk : Disk σ) (fb : Int)
    (hread : ∀ f ∈ splitString b.img_filenames ':', host.imread (cstr b.img_folder ++ f) ≠ none)
    (hne : splitString b.img_filenames ':' ≠ [])
    (hfirst : 2 ≤ (splitString ((splitString b.img_filenames ':').getD 0 []) ',').length)
    (hlast : 2 ≤ (splitString ((splitString b.img_filenames ':').getLast?.getD []) ',').length)
    (hfb : firstBin (lastLine disk.ledger) = .ok fb) :
    ∃ disk', saveFeatures host b.img_folder b.img_filenames b.out_folder disk = .saved disk' := by
  obtain ⟨images, himg⟩ := readImages_all host (cstr b.img_folder) _ [] hread
  obtain ⟨_, hlen⟩ := readImages_some host _ _ _ _ himg
  simp only [List.length_nil, Nat.zero_add] at hlen
  have hpos : 0 < (splitString b.img_filenames ':').length := List.length_pos.mpr hne
  obtain ⟨first, hf⟩ := vecAt_total (splitString b.img_filenames ':') 0 (le_refl _) (by simpa using hpos)
  have ef := vecAt_ok _ _ _ [] hf
  simp only [Int.toNat_zero] at ef
  rw [ef] at hfirst
  obtain ⟨seg0, h0⟩ := vecAt_total (splitString first ',') 0 (le_refl _) (by simp; omega)
  obtain ⟨seg1, h1⟩ := vecAt_total (splitString first ',') 1 (by decide) (by simp; omega)
  have hdne : (List.map (rootSIFT host.sqrt) (List.map host.describe images)) ≠ [] := by
    intro hnil
    have := congrArg List.length hnil
    simp at this
    rw [this] at hlen
    simp at hlen
    omega
  obtain ⟨filename, hfn⟩ := vecAt_total (splitString b.img_filenames ':')
    (((List.map (rootSIFT host.sqrt) (List.map host.describe images)).length - 1 : Nat) : Int)
    (Int.natCast_nonneg _) (by simp [hlen]; omega)
  have efn := vecAt_ok _ _ _ [] hfn
  simp only [Int.toNat_ofNat, List.length_map] at efn
  rw [hlen, ← getLast_getD] at efn
  rw [efn] at hlast
  obtain ⟨lat, hlat⟩ := vecAt_total (splitString filename ',') 0 (le_refl _) (by simp; omega)
  obtain ⟨lng, hlng⟩ := vecAt_total (splitString filename ',') 1 (by decide) (by simp; omega)
  unfold saveFeatures
  simp only [himg, hf, h0, h1, hfb]
  rw [writeLoop_eq _ _ _ _ 0 _ _ (by simp) hdne]
  simp only [hfn, hlat, hlng]
  exact ⟨_, rfl⟩

/-- C6. When at least one listed image fails to decode, whatever its position in the list,
`saveFeatures` returns at the failed read with the persisted state unchanged: the same
matcher files and the same ledger content. -/
theorem saveFeatures_all_or_nothing {α : Type} [LinearOrderedField α] {Image σ : Type}
    (host : SaverHost α Image σ) (img_folder img_filenames out_folder : List Char)
    (disk : Disk σ)
    (h : ∃ f ∈ splitString img_filenames ':', host.imread (cstr img_folder ++ f) = none) :
    saveFeatures host img_folder img_filenames out_folder disk = .unreadable disk := by
  unfold saveFeatures
  simp only [readImages_none host (cstr img_folder) _ [] h]

/-- Witness for C6: the unreadable file is the second of three and the ledger has a line. -/
theorem saveFeatures_all_or_nothing_witness :
    (∃ f ∈ splitString "1,2,a:bad:3,4,b".toList ':',
        lengthHost.imread (cstr "".toList ++ f) = none)
    ∧ saveFeatures lengthHost "".toList "1,2,a:bad:3,4,b".toList "out/".toList
        ⟨(), "9,8,0,6\n".toList⟩ = .unreadable ⟨(), "9,8,0,6\n".toList⟩ :=
  ⟨⟨"bad".toList, by decide, by decide⟩,
    saveFeatures_all_or_nothing lengthHost _ _ _ _ ⟨"bad".toList, by decide, by decide⟩⟩

/-- C7 fails as stated: with every image readable, a ledger whose last line `a,b,c` has
three fields makes `saveFeatures` raise `out_of_range`, and one whose last line `a,b,c,x`
has a non-numeric fourth field makes it raise `invalid_argument`; no ledger line is
written. -/
theorem saveFeatures_malformed_ledger_raises :
    saveFeatures lengthHost [] "1,2,ab".toList [] ⟨(), "a,b,c".toList⟩
      = .raised Fault.out_of_range ⟨(), "a,b,c".toList⟩
    ∧ saveFeatures lengthHost [] "1,2,ab".toList [] ⟨(), "a,b,c,x".toList⟩
      = .raised Fault.invalid_argument ⟨(), "a,b,c,x".toList⟩ := by
  constructor <;> decide

/-- C7, amended. For every ledger content that is empty or whose last line is empty, the
next record's `startBin` is 0 and the ingestion of a batch whose images all decode and
whose first and last file names have two comma-separated fields completes without an
error, appending the line `lat,lng,0,count-1`. -/
theorem saveFeatures_empty_ledger_default {α : Type} [LinearOrderedField α] {Image σ : Type}
    (host : SaverHost α Image σ) (b : Batch) (disk : Disk σ)
    (hledger : lastLine disk.ledger = [])
    (hread : ∀ f ∈ splitString b.img_filenames ':', host.imread (cstr b.img_folder ++ f) ≠ none)
    (hne : splitString b.img_filenames ':' ≠ [])
    (hfirst : 2 ≤ (splitString ((splitString b.img_filenames ':').getD 0 []) ',').length)
    (hlast : 2 ≤ (splitString ((splitString b.img_filenames ':').getLast?.getD []) ',').length) :
    firstBin (lastLine disk.ledger) = .ok 0 ∧
    ∃ disk', saveFeatures host b.img_folder b.img_filenames b.out_folder disk = .saved disk' ∧
      disk'.ledger
        = disk.ledger ++ ledgerLine (batchTag b) 0 (0 + (batchCount host b : Nat) - 1) := by
  have hfb : firstBin (lastLine disk.ledger) = .ok 0 := by rw [hledger]; rfl
  obtain ⟨disk', hs⟩ := saveFeatures_saves host b disk 0 hread hne hfirst hlast hfb
  obtain ⟨fb, hfb2, hl, _⟩ := saveFeatures_saved host b disk disk' hs
  rw [hfb] at hfb2
  cases hfb2
  exact ⟨hfb, disk', hs, hl⟩

/-- Witness for the amended C7: a ledger that ends in a blank line. -/
theorem saveFeatures_empty_ledger_default_witness :
    lastLine "9,8,0,6\n\n".toList = []
    ∧ ∃ disk', saveFeatures lengthHost [] "1,2,ab:1,2,c".toList [] ⟨(), "9,8,0,6\n\n".toList⟩
        = .saved disk'
      ∧ disk'.ledger = "9,8,0,6\n\n".toList
          ++ ledgerLine (batchTag ⟨[], "1,2,ab:1,2,c".toList, []⟩) 0
              (0 + (batchCount lengthHost ⟨[], "1,2,ab:1,2,c".toList, []⟩ : Nat) - 1) :=
  ⟨by decide,
    (saveFeatures_empty_ledger_default lengthHost ⟨[], "1,2,ab:1,2,c".toList, []⟩
      ⟨(), "9,8,0,6\n\n".toList⟩ (by decide) (by decide) (by decide) (by decide)
      (by decide)).2⟩


theorem rootSIFT_four_nine :
    rootSIFT Real.sqrt (⟨2, 1, [4, 9]⟩ : Mat ℝ) = ⟨2, 1, [1, 1]⟩ := by
  simp [rootSIFT, rootSIFTRow, absMat, reduceRowSum, Mat.at, List.range_succ]

/-- C2 fails on the code. `Recogniser::query` passes the descriptors to the search as the
detector returned them, without `rootSIFT`. With an index built, as `saveFeatures` builds
it, from the normalized descriptors of an image whose raw descriptors are 4 and 9, and an
exact 2-nearest-neighbour search, querying with that same image returns 0, where the
specified query on normalized descriptors returns 2. -/
theorem query_skips_rootSIFT :
    query (twoDescriptorHost : QueryHost ℝ Unit (Mat ℝ))
        (rootSIFT Real.sqrt ⟨2, 1, [4, 9]⟩) [] = .ok 0
    ∧ queryNormalized Real.sqrt (twoDescriptorHost : QueryHost ℝ Unit (Mat ℝ))
        (rootSIFT Real.sqrt ⟨2, 1, [4, 9]⟩) [] = .ok 2 := by
  constructor
  · simp only [query, twoDescriptorHost, rootSIFT_four_nine]
    simp [knnTwo, Mat.at, List.range_succ, loweFilter, loweFilterLoop]
    norm_num
  · simp only [queryNormalized, twoDescriptorHost, rootSIFT_four_nine]
    simp [knnTwo, Mat.at, List.range_succ, loweFilter, loweFilterLoop]

end BuildingRecognition
